import Mathlib

/-!
Verification development for the marker-scoped SCSS import synchronization
engine of scss-import-watcher (src/index.js, function scssImportWatcher).

The text engine is modelled at the level of character lists (`List Char`,
the logical model of Lean's `String`), mirroring the JavaScript pipeline:
`content.split('\n')`, a top-to-bottom scan recording the marker line
indices, region replacement or insertion, `join('\n')`, and the blank-line
normalization `.replace(/\n{3,}/g, '\n\n')`.
-/

namespace ScssWatcher

/-! ## Text primitives -/

/-- `splitAux s acc` models JavaScript `String.prototype.split('\n')`:
`acc` holds the (reversed) characters of the line being accumulated. -/
def splitAux : List Char → List Char → List (List Char)
  | [], acc => [acc.reverse]
  | c :: cs, acc => if c = '\n' then acc.reverse :: splitAux cs [] else splitAux cs (c :: acc)

/-- JS `content.split('\n')`. -/
def splitLinesL (s : List Char) : List (List Char) := splitAux s []

/-- JS `lines.join('\n')`. -/
def joinLinesL : List (List Char) → List Char
  | [] => []
  | [l] => l
  | l :: l' :: ls => l ++ '\n' :: joinLinesL (l' :: ls)

/-- `collapseAux pend s` is the normalization `.replace(/\n{3,}/g, '\n\n')`
applied to `'\n'^pend ++ s`: every maximal run of `m` newlines is replaced
by `min m 2` newlines (runs of one or two newlines are untouched; the
regex rewrites each maximal run of three or more to exactly two). -/
def collapseAux : Nat → List Char → List Char
  | pend, [] => List.replicate (min pend 2) '\n'
  | pend, c :: cs =>
    if c = '\n' then collapseAux (pend + 1) cs
    else List.replicate (min pend 2) '\n' ++ c :: collapseAux 0 cs

/-- JS `.replace(/\n{3,}/g, '\n\n')`. -/
def collapseChars (s : List Char) : List Char := collapseAux 0 s

/-- JS `hay.includes(needle)` (substring test). -/
def lineContains : List Char → List Char → Bool
  | [], needle => needle.isEmpty
  | c :: t, needle => needle.isPrefixOf (c :: t) || lineContains t needle

/-- Index of the last line satisfying `p`.  This is the net effect of the
JS scan `for (i...) { if (lines[i].includes(marker)) idx = i; }`: each
match overwrites `idx`, so the final value is the index of the last
matching line (`none` models the `-1` sentinel). -/
def findLastIdx (p : List Char → Bool) : List (List Char) → Option Nat
  | [] => none
  | l :: ls =>
    match findLastIdx p ls with
    | some j => some (j + 1)
    | none => if p l then some 0 else none

/-- JS whitespace characters relevant to `trimEnd` in this code base. -/
def isJsWs (c : Char) : Bool := c = ' ' || c = '\n' || c = '\t' || c = '\r'

/-- JS `String.prototype.trimEnd`. -/
def trimEndL (s : List Char) : List Char := (s.reverse.dropWhile isJsWs).reverse

/-- Whether a character list starts with two newlines (auxiliary for
`hasNNN`). -/
def startsNlNl : List Char → Bool
  | c :: d :: _ => c = '\n' && d = '\n'
  | _ => false

/-- Whether a character list contains three consecutive newlines, i.e.
whether the normalization regex `/\n{3,}/` has a match. -/
def hasNNN : List Char → Bool
  | [] => false
  | c :: t => (c = '\n' && startsNlNl t) || hasNNN t

/-- `segsAux s acc` extracts the maximal newline-free non-empty segments
of `acc.reverse ++ s` (auxiliary for relating `collapseChars` to
the non-empty lines of a text). -/
def segsAux : List Char → List Char → List (List Char)
  | [], acc => if acc.isEmpty then [] else [acc.reverse]
  | c :: cs, acc =>
    if c = '\n' then (if acc.isEmpty then [] else [acc.reverse]) ++ segsAux cs []
    else segsAux cs (c :: acc)

/-! ## Markers and the marker-region operations -/

/-- `markerStart = "/* ${effectiveMarkerId} import start */"`. -/
def markerStartL (id : List Char) : List Char :=
  "/* ".data ++ id ++ " import start */".data

/-- `markerEnd = "/* ${effectiveMarkerId} import end */"`. -/
def markerEndL (id : List Char) : List Char :=
  "/* ".data ++ id ++ " import end */".data

/-- The insertion branch of `updateStylesFile` (markers not located):
insert `[markerStart, newImportsContent, markerEnd]` at
`Math.min(insertLine, lines.length)`. -/
def insertBlock (mS mE : List Char) (insertLine : Nat) (body : List Char)
    (lines : List (List Char)) : List (List Char) :=
  let ins := min insertLine lines.length
  lines.take ins ++ [mS, body, mE] ++ lines.drop ins

/-- Core of `updateStylesFile` (src/index.js lines 148-223), from the file
content that was read to the final content that is written:
split into lines, locate the marker lines (last occurrence of each, see
`findLastIdx`), replace the region body (or insert a fresh block), join,
and normalize newline runs.  `insertLine` is the 0-indexed
`options.line - 1`; `body` is the rendered `newImportsContent`. -/
def updateStylesCore (mS mE : List Char) (insertLine : Nat) (body : List Char)
    (content : List Char) : List Char :=
  let lines := splitLinesL content
  let sIdx := findLastIdx (fun l => lineContains l mS) lines
  let eIdx := findLastIdx (fun l => lineContains l mE) lines
  let newLines :=
    match sIdx, eIdx with
    | some s, some e =>
      if s < e then lines.take (s + 1) ++ [body] ++ lines.drop e
      else insertBlock mS mE insertLine body lines
    | _, _ => insertBlock mS mE insertLine body lines
  collapseChars (joinLinesL newLines)

/-- Core of `removeMarkers` (src/index.js lines 225-285).  Returns `some`
final content when the marker pair is located (`startIndex < endIndex`)
and the file is rewritten, `none` when nothing is removed (no write).
With `deleteImports = false` the interior lines are kept, except that
every line containing both `"/*"` and `"*/"` (a group-marker comment) is
dropped, per `if (!line.includes('/*') || !line.includes('*/'))`. -/
def removeMarkersCore (mS mE : List Char) (deleteImports : Bool)
    (content : List Char) : Option (List Char) :=
  let lines := splitLinesL content
  match findLastIdx (fun l => lineContains l mS) lines,
        findLastIdx (fun l => lineContains l mE) lines with
  | some s, some e =>
    if s < e then
      let interior := (lines.drop (s + 1)).take (e - (s + 1))
      let mid := if deleteImports then [] else
        interior.filter (fun l => !(lineContains l "/*".data) || !(lineContains l "*/".data))
      some (collapseChars (joinLinesL (lines.take s ++ mid ++ lines.drop (e + 1))))
    else none
  | _, _ => none

/-- `updateStylesFile` including its guard `if (!fs.existsSync(stylesFilePath))`:
when the styles file is absent the function returns without writing
(`none`); otherwise the freshly read content is rewritten and the file is
written back unconditionally (`some` = a `fs.writeFileSync` call). -/
def updateStylesFileRun (stylesFileOnDisk : Option (List Char)) (mS mE : List Char)
    (insertLine : Nat) (body : List Char) : Option (List Char) :=
  match stylesFileOnDisk with
  | none => none
  | some content => some (updateStylesCore mS mE insertLine body content)

/-! ## Discovery (`generateImports` / `readDirRecursive`) -/

/-! Abstract directory tree under the watch directory.  `FSEntries` is an
inlined list of entries (a plain list, spelled out as a mutual inductive
so that the directory walk below is structurally recursive). -/
mutual
inductive FSEntry where
  | file (name : String)
  | dir (name : String) (entries : FSEntries)
inductive FSEntries where
  | nil
  | cons (head : FSEntry) (tail : FSEntries)
end

/-- Build an `FSEntries` from a list literal. -/
def fsOf : List FSEntry → FSEntries
  | [] => .nil
  | e :: rest => .cons e (fsOf rest)

/-- Eligibility test of `readDirRecursive`:
`file.startsWith("_") && file.endsWith(".scss")`. -/
def isUnderscoreScss (name : String) : Bool :=
  "_".data.isPrefixOf name.data && ".scss".data.isSuffixOf name.data

/-- `path.basename(p, '.scss')`: strips the `.scss` suffix (Node keeps the
name unchanged when the basename is exactly the extension). -/
def stripScssSuffix (name : String) : String :=
  if ".scss".data.isSuffixOf name.data && ".scss".data.length < name.data.length
  then ⟨name.data.take (name.data.length - ".scss".data.length)⟩
  else name

/-- `path.posix.join(d, b)` for the shapes arising here (`d` is `"."` or a
slash-joined non-empty relative directory path, `b` a file stem without
slashes): empty segments are skipped enjoying Node's normalization
(`join('.', 'x') = 'x'`, `join('.', '') = '.'`, `join(d, '') = d`). -/
def posixJoin (d b : String) : String :=
  if b = "" then d else if d = "." then b else d ++ "/" ++ b

/-- Import identifier derivation for a file `name` at directory segments
`rel` relative to `watchDir`: strip `.scss`, strip one leading `_` from
the filename only, rejoin with the dirname (`.` for direct files). -/
def deriveImportPath (rel : List String) (name : String) : String :=
  let base := stripScssSuffix name
  let fmt : String := if "_".data.isPrefixOf base.data then ⟨base.data.drop 1⟩ else base
  let dirName := if rel.isEmpty then "." else String.intercalate "/" rel
  posixJoin dirName fmt

/-- The literal line pushed into the grouped-import cache. -/
def importLineOf (rel : List String) (name : String) : String :=
  "@import \"" ++ deriveImportPath rel name ++ "\";"

/-- `parts.length > 1 ? parts[0] : 'base'`. -/
def groupKeyOf (rel : List String) : String :=
  match rel with
  | [] => "base"
  | d :: _ => d

/-- One discovered `.scss` partial: its absolute path (as segments), its
group key and its rendered `@import` line. -/
structure DiscoveredImport where
  src : List String
  group : String
  line : String
deriving DecidableEq

/-- Exclusion test of `readDirRecursive`: a directory is skipped when its
absolute path equals an excluded path or starts with it plus a
separator — on segment lists, when an excluded path is a prefix. -/
def isExcludedDir (excludeAbs : List (List String)) (full : List String) : Bool :=
  excludeAbs.any (fun ex => ex.isPrefixOf full)

/-! `readDirRecursive` (src/index.js lines 80-126): walk the entries,
skipping excluded directories, collecting every file whose basename
starts with `_` and ends with `.scss`.  `curAbs` is the absolute path of
the directory being read, `rel` its segments relative to `watchDir`.
`readDirEntry` is one iteration of the `files.forEach` body.
Note that no file is ever compared against the target styles file. -/
mutual
def readDirEntry (excludeAbs : List (List String)) :
    FSEntry → List String → List String → List DiscoveredImport
  | .file name, curAbs, rel =>
    if isUnderscoreScss name
    then [⟨curAbs ++ [name], groupKeyOf rel, importLineOf rel name⟩]
    else []
  | .dir name entries, curAbs, rel =>
    if isExcludedDir excludeAbs (curAbs ++ [name]) then []
    else readDirRec excludeAbs entries (curAbs ++ [name]) (rel ++ [name])
def readDirRec (excludeAbs : List (List String)) :
    FSEntries → List String → List String → List DiscoveredImport
  | .nil, _, _ => []
  | .cons e rest, curAbs, rel =>
    readDirEntry excludeAbs e curAbs rel ++ readDirRec excludeAbs rest curAbs rel
end

/-- Lexicographic comparison of character lists by code point, the JS
`<` relation on strings (code-unit order, identical on the ASCII data
appearing here). -/
def lexLt : List Char → List Char → Bool
  | [], [] => false
  | [], _ :: _ => true
  | _ :: _, [] => false
  | c :: cs, d :: ds => if c < d then true else if d < c then false else lexLt cs ds

/-- JS `a < b` on strings. -/
def strLtB (a b : String) : Bool := lexLt a.data b.data

/-- Insertion sort step for JS `Array.prototype.sort()` over strings
(lexicographic comparison of code units). -/
def insortStr (x : String) : List String → List String
  | [] => [x]
  | y :: t => if strLtB y x then y :: insortStr x t else x :: y :: t

/-- JS default string sort. -/
def sortStrings (l : List String) : List String := l.foldr insortStr []

/-- Group keys in first-encounter (object-insertion) order. -/
def keysInOrder (ds : List DiscoveredImport) : List String :=
  ds.foldl (fun ks d => if d.group ∈ ks then ks else ks ++ [d.group]) []

/-- `'base'` first, remaining keys sorted (the JS comparator uses
`localeCompare`, which agrees with code-unit order on the ASCII names
appearing here). -/
def sortedGroupKeys (ks : List String) : List String :=
  (if "base" ∈ ks then ["base"] else []) ++ sortStrings (ks.filter (fun k => k ≠ "base"))

/-- `generateImports` grouping and sorting: imports sorted inside each
group, groups ordered with `base` first. -/
def generateCache (ds : List DiscoveredImport) : List (String × List String) :=
  (sortedGroupKeys (keysInOrder ds)).map
    (fun k => (k, sortStrings ((ds.filter (fun d => d.group = k)).map (fun d => d.line))))

/-- `newImportsContent` rendering in `updateStylesFile` (lines 172-182):
for every non-empty group emit `/* groupKey */` followed by the group's
imports, then `trimEnd()` the concatenation.  An empty cache renders as
the empty string. -/
def renderImports (cache : List (String × List String)) : String :=
  if cache.isEmpty then "" else
    ⟨trimEndL (String.join (cache.map (fun g =>
      if g.2.isEmpty then "" else
        "/* " ++ g.1 ++ " */" ++ "\n" ++ String.intercalate "\n" g.2 ++ "\n"))).data⟩

/-! ## The watcher state machine -/

/-- `markerStart` as a `String`. -/
def mkStartS (id : String) : String := "/* " ++ id ++ " import start */"

/-- `markerEnd` as a `String`. -/
def mkEndS (id : String) : String := "/* " ++ id ++ " import end */"

/-- String-level wrapper of `updateStylesCore`. -/
def updateStylesText (mS mE : String) (insertLine : Nat) (body content : String) : String :=
  ⟨updateStylesCore mS.data mE.data insertLine body.data content.data⟩

/-- Static configuration of one watcher. -/
structure WConfig where
  markerId : String
  insertLine : Nat
  watchAbs : List String
  excludeAbs : List (List String)

/-- A fresh discovery pass (`generateImports` body when active). -/
def discoverNow (cfg : WConfig) (entries : FSEntries) : List (String × List String) :=
  generateCache (readDirRec cfg.excludeAbs entries cfg.watchAbs [])

/-- Observable state of one watcher instance: the `_isActive` flag, the
`_currentGroupedImportsCache`, the current contents of the watched
directory, the on-disk target file, whether a debounce timer is armed,
and the number of `fs.writeFileSync` calls performed so far. -/
structure WState where
  isActive : Bool
  groupedImportsCache : List (String × List String)
  fsEntries : FSEntries
  disk : String
  debPending : Bool
  writes : Nat

/-- Events driving a watcher: a chokidar change notification (add /
unlink / change / addDir / unlinkDir, carrying the new directory
contents), the debounce timer firing, `pause()`, `resume()`, and
`_initialUpdate()`. -/
inductive WEvent where
  | fsEvent (entries : FSEntries)
  | timerFire
  | pauseCmd
  | resumeCmd
  | initialUpdate

/-- One step of the watcher (src/index.js lines 287-341).
* A chokidar event calls the debounced `updateStylesFile(false)`:
  it only (re)arms the timer.
* When the timer fires, `updateStylesFile(false)` runs: it rewrites the
  target from the *cached* imports (no discovery) and always writes.
* `pause()` clears `_isActive`; `resume()` sets it and calls the
  debounced update (arming the timer, not writing immediately).
* `_initialUpdate()` runs `generateImports()` (a no-op on the cache when
  paused) and then `updateStylesFile(true)`.
The target styles file is assumed to exist throughout. -/
def wstep (cfg : WConfig) (w : WState) : WEvent → WState
  | .fsEvent f => { w with fsEntries := f, debPending := true }
  | .timerFire =>
    if w.debPending then
      { w with debPending := false,
               disk := updateStylesText (mkStartS cfg.markerId) (mkEndS cfg.markerId)
                         cfg.insertLine (renderImports w.groupedImportsCache) w.disk,
               writes := w.writes + 1 }
    else w
  | .pauseCmd => { w with isActive := false }
  | .resumeCmd =>
    if w.isActive then w else { w with isActive := true, debPending := true }
  | .initialUpdate =>
    let c := if w.isActive then discoverNow cfg w.fsEntries else w.groupedImportsCache
    { w with groupedImportsCache := c,
             disk := updateStylesText (mkStartS cfg.markerId) (mkEndS cfg.markerId)
                       cfg.insertLine (renderImports c) w.disk,
             writes := w.writes + 1 }

/-- Run a sequence of events. -/
def runEvents (cfg : WConfig) (w : WState) (evs : List WEvent) : WState :=
  evs.foldl (wstep cfg) w

/-! ## Spec-side first-occurrence locate (for comparison)

The specification (§4.3) describes `locate` as recording the index of the
*first* line containing the start marker and the first subsequent line
containing the end marker.  These definitions follow the spec's words and
are used only to compare against the implementation above. -/

/-- Index of the first line satisfying `p` (spec-side). -/
def findFirstIdx (p : List Char → Bool) : List (List Char) → Option Nat
  | [] => none
  | l :: ls => if p l then some 0 else (findFirstIdx p ls).map (· + 1)

/-- Modelled from the spec (§4.3): the located region is delimited by the
first start-marker line and the first subsequent end-marker line. -/
def specFirstLocate (mS mE : List Char) (lines : List (List Char)) : Option (Nat × Nat) :=
  match findFirstIdx (fun l => lineContains l mS) lines with
  | none => none
  | some s =>
    match findFirstIdx (fun l => lineContains l mE) (lines.drop (s + 1)) with
    | none => none
    | some k => some (s, s + 1 + k)

/-- Modelled from the spec (§4.3 and §4.4): synchronize acting on the
first-occurrence region when one exists, otherwise inserting. -/
def specFirstUpdate (mS mE : List Char) (insertLine : Nat) (body : List Char)
    (content : List Char) : List Char :=
  let lines := splitLinesL content
  let newLines :=
    match specFirstLocate mS mE lines with
    | some (s, e) => lines.take (s + 1) ++ [body] ++ lines.drop e
    | none => insertBlock mS mE insertLine body lines
  collapseChars (joinLinesL newLines)

/-! ## Lemmas about splitting and joining lines -/

theorem splitAux_ne_nil (s acc : List Char) : splitAux s acc ≠ [] := by
  induction s generalizing acc with
  | nil => simp [splitAux]
  | cons c cs ih =>
    simp only [splitAux]
    split
    · simp
    · exact ih _

theorem splitLinesL_ne_nil (s : List Char) : splitLinesL s ≠ [] := splitAux_ne_nil s []

theorem no_nl_of_mem_splitAux {s acc : List Char} (hacc : '\n' ∉ acc) :
    ∀ l ∈ splitAux s acc, '\n' ∉ l := by
  induction s generalizing acc with
  | nil =>
    intro l hl
    simp only [splitAux, List.mem_singleton] at hl
    subst hl
    simpa using hacc
  | cons c cs ih =>
    intro l hl
    simp only [splitAux] at hl
    by_cases hc : c = '\n'
    · rw [if_pos hc] at hl
      rcases List.mem_cons.mp hl with h | h
      · subst h; simpa using hacc
      · exact ih (by simp) l h
    · rw [if_neg hc] at hl
      refine ih ?_ l hl
      intro hmem
      rcases List.mem_cons.mp hmem with h | h
      · exact hc h.symm
      · exact hacc h

theorem no_nl_of_mem_splitLinesL {s : List Char} :
    ∀ l ∈ splitLinesL s, '\n' ∉ l :=
  no_nl_of_mem_splitAux (by simp)

theorem joinLinesL_cons (a : List Char) (L : List (List Char)) (h : L ≠ []) :
    joinLinesL (a :: L) = a ++ '\n' :: joinLinesL L := by
  cases L with
  | nil => exact absurd rfl h
  | cons b t => rfl

theorem join_splitAux (s acc : List Char) :
    joinLinesL (splitAux s acc) = acc.reverse ++ s := by
  induction s generalizing acc with
  | nil => simp [splitAux, joinLinesL]
  | cons c cs ih =>
    simp only [splitAux]
    by_cases hc : c = '\n'
    · rw [if_pos hc, joinLinesL_cons _ _ (splitAux_ne_nil _ _), ih []]
      simp [hc]
    · rw [if_neg hc, ih (c :: acc)]
      simp

theorem join_splitLinesL (s : List Char) : joinLinesL (splitLinesL s) = s := by
  simpa using join_splitAux s []

theorem splitAux_no_nl_chunk {v : List Char} (hv : '\n' ∉ v) (w acc : List Char) :
    splitAux (v ++ w) acc = splitAux w (v.reverse ++ acc) := by
  induction v generalizing acc with
  | nil => simp
  | cons c t ih =>
    have hc : ¬(c = '\n') := fun h => hv (by simp [h])
    simp only [List.cons_append, splitAux, if_neg hc, List.append_eq]
    rw [ih (fun h => hv (List.mem_cons_of_mem _ h)) (c :: acc)]
    simp

theorem splitLinesL_no_nl {v : List Char} (hv : '\n' ∉ v) : splitLinesL v = [v] := by
  have h := splitAux_no_nl_chunk hv [] []
  simpa [splitAux, splitLinesL] using h

theorem splitAux_cat (a b acc : List Char) :
    splitAux (a ++ '\n' :: b) acc = splitAux a acc ++ splitLinesL b := by
  induction a generalizing acc with
  | nil => simp [splitAux, splitLinesL]
  | cons c t ih =>
    simp only [List.cons_append, splitAux, List.append_eq]
    by_cases hc : c = '\n'
    · rw [if_pos hc, if_pos hc, ih []]
      simp
    · rw [if_neg hc, if_neg hc, ih (c :: acc)]

theorem splitLinesL_cat (a b : List Char) :
    splitLinesL (a ++ '\n' :: b) = splitLinesL a ++ splitLinesL b := splitAux_cat a b []

theorem splitLinesL_joinLinesL {ls : List (List Char)} (hne : ls ≠ [])
    (hnl : ∀ l ∈ ls, '\n' ∉ l) : splitLinesL (joinLinesL ls) = ls := by
  induction ls with
  | nil => exact absurd rfl hne
  | cons a t ih =>
    cases t with
    | nil => simp [joinLinesL, splitLinesL_no_nl (hnl a (by simp))]
    | cons b t' =>
      rw [joinLinesL_cons a _ (by simp), splitLinesL_cat,
        splitLinesL_no_nl (hnl a (by simp)),
        ih (by simp) (fun l hl => hnl l (List.mem_cons_of_mem _ hl))]
      rfl

theorem joinLinesL_append {A B : List (List Char)} (hA : A ≠ []) (hB : B ≠ []) :
    joinLinesL (A ++ B) = joinLinesL A ++ '\n' :: joinLinesL B := by
  induction A with
  | nil => exact absurd rfl hA
  | cons a t ih =>
    cases t with
    | nil =>
      cases B with
      | nil => exact absurd rfl hB
      | cons b t' => simp [joinLinesL_cons, joinLinesL]
    | cons a' t' =>
      rw [List.cons_append, joinLinesL_cons a _ (by simp),
        joinLinesL_cons a (a' :: t') (by simp), ih (by simp)]
      simp

theorem joinLinesL_splice (A C : List (List Char)) (b : List Char) :
    joinLinesL (A ++ [b] ++ C) = joinLinesL (A ++ splitLinesL b ++ C) := by
  have hb : joinLinesL (splitLinesL b) = b := join_splitLinesL b
  have hsb : splitLinesL b ≠ [] := splitLinesL_ne_nil b
  rcases eq_or_ne A [] with hA | hA
  · subst hA
    rcases eq_or_ne C [] with hC | hC
    · subst hC; simpa [joinLinesL] using hb.symm
    · simp only [List.nil_append, List.singleton_append]
      rw [joinLinesL_cons b C hC, joinLinesL_append hsb hC, hb]
  · rcases eq_or_ne C [] with hC | hC
    · subst hC
      simp only [List.append_nil]
      rw [joinLinesL_append hA (show [b] ≠ [] by simp),
        joinLinesL_append hA hsb, hb]
      simp [joinLinesL]
    · rw [joinLinesL_append (show A ++ [b] ≠ [] by simp) hC,
        joinLinesL_append hA (show [b] ≠ [] by simp),
        joinLinesL_append (show A ++ splitLinesL b ≠ [] by simp [hA]) hC,
        joinLinesL_append hA hsb, hb]
      simp [joinLinesL]

/-! ## Lemmas about newline-run collapsing -/

theorem collapseAux_nil (p : Nat) :
    collapseAux p [] = List.replicate (min p 2) '\n' := rfl

theorem collapseAux_cons_nl (p : Nat) (t : List Char) :
    collapseAux p ('\n' :: t) = collapseAux (p + 1) t := by
  rw [collapseAux]
  simp

theorem collapseAux_cons_of_ne {c : Char} (hc : c ≠ '\n') (p : Nat) (t : List Char) :
    collapseAux p (c :: t) = List.replicate (min p 2) '\n' ++ c :: collapseAux 0 t := by
  rw [collapseAux]
  simp [hc]

theorem collapseAux_no_nl {s : List Char} (hs : '\n' ∉ s) (p : Nat) :
    collapseAux p s = List.replicate (min p 2) '\n' ++ s := by
  induction s generalizing p with
  | nil => simp [collapseAux_nil]
  | cons c t ih =>
    have hc : c ≠ '\n' := fun h => hs (by simp [h])
    rw [collapseAux_cons_of_ne hc, ih (fun h => hs (List.mem_cons_of_mem _ h)) 0]
    simp

theorem collapseChars_no_nl {s : List Char} (hs : '\n' ∉ s) : collapseChars s = s := by
  simpa using collapseAux_no_nl hs 0

theorem collapseAux_append_right {b : List Char} (hb : b.head? ≠ some '\n') (p : Nat)
    (a : List Char) : collapseAux p (a ++ b) = collapseAux p a ++ collapseAux 0 b := by
  induction a generalizing p with
  | nil =>
    cases b with
    | nil => simp [collapseAux_nil]
    | cons c t =>
      have hc : c ≠ '\n' := by simpa using hb
      simp [collapseAux_cons_of_ne hc, collapseAux_nil]
  | cons c t ih =>
    by_cases hc : c = '\n'
    · subst hc
      rw [List.cons_append, collapseAux_cons_nl, collapseAux_cons_nl]
      exact ih (p + 1)
    · rw [List.cons_append, collapseAux_cons_of_ne hc, collapseAux_cons_of_ne hc, ih 0]
      simp

theorem collapseAux_append_left {a : List Char} {c : Char} (ha : a.getLast? = some c)
    (hc : c ≠ '\n') (p : Nat) (b : List Char) :
    collapseAux p (a ++ b) = collapseAux p a ++ collapseAux 0 b := by
  induction a generalizing p with
  | nil => simp at ha
  | cons d t ih =>
    cases t with
    | nil =>
      have hd : d = c := by simpa using ha
      subst hd
      have hd' : d ≠ '\n' := hc
      rw [List.singleton_append, collapseAux_cons_of_ne hd',
        collapseAux_cons_of_ne hd', collapseAux_nil]
      simp
    | cons d' t' =>
      have ha' : (d' :: t').getLast? = some c := by
        rw [← ha, List.getLast?_cons_cons]
      by_cases hd : d = '\n'
      · subst hd
        rw [List.cons_append, collapseAux_cons_nl, collapseAux_cons_nl]
        exact ih ha' (p + 1)
      · rw [List.cons_append, collapseAux_cons_of_ne hd, collapseAux_cons_of_ne hd, ih ha' 0]
        simp

theorem collapseAux_head_not_nl {z : List Char} (hz : z.head? ≠ some '\n') (p : Nat) :
    collapseAux p z = List.replicate (min p 2) '\n' ++ collapseAux 0 z := by
  cases z with
  | nil => simp [collapseAux_nil]
  | cons c t =>
    have hc : c ≠ '\n' := by simpa using hz
    rw [collapseAux_cons_of_ne hc, collapseAux_cons_of_ne hc]
    simp

theorem collapseAux_pos_head (z : List Char) : ∀ p, ∃ w, collapseAux (p + 1) z = '\n' :: w := by
  induction z with
  | nil =>
    intro p
    refine ⟨List.replicate (min p 1) '\n', ?_⟩
    have h : min (p + 1) 2 = min p 1 + 1 := by omega
    rw [collapseAux_nil, h, List.replicate_succ]
  | cons c t ih =>
    intro p
    by_cases hc : c = '\n'
    · subst hc
      rw [collapseAux_cons_nl]
      exact ih (p + 1)
    · refine ⟨List.replicate (min p 1) '\n' ++ c :: collapseAux 0 t, ?_⟩
      have h : min (p + 1) 2 = min p 1 + 1 := by omega
      rw [collapseAux_cons_of_ne hc, h, List.replicate_succ, List.cons_append]

theorem collapseAux_getLast_nl {a : List Char} (ha : a.getLast? = some '\n') (p : Nat) :
    (collapseAux p a).getLast? = some '\n' := by
  induction a generalizing p with
  | nil => simp at ha
  | cons c t ih =>
    cases t with
    | nil =>
      have hc : c = '\n' := by simpa using ha
      subst hc
      rw [collapseAux_cons_nl, collapseAux_nil]
      have h : min (p + 1) 2 = min p 1 + 1 := by omega
      rw [h, List.replicate_succ', List.getLast?_concat]
    | cons d t' =>
      have ha' : (d :: t').getLast? = some '\n' := by
        rw [← ha, List.getLast?_cons_cons]
      by_cases hc : c = '\n'
      · subst hc
        rw [collapseAux_cons_nl]
        exact ih ha' (p + 1)
      · rw [collapseAux_cons_of_ne hc, List.getLast?_append]
        have htail : (c :: collapseAux 0 (d :: t')).getLast? = some '\n' := by
          rw [show (c :: collapseAux 0 (d :: t')) = [c] ++ collapseAux 0 (d :: t') from rfl,
            List.getLast?_append, ih ha' 0]
          rfl
        rw [htail]
        rfl

theorem collapseChars_collapseAux (s : List Char) :
    ∀ p, collapseChars (collapseAux p s) = collapseAux p s := by
  induction s with
  | nil =>
    intro p
    rw [collapseAux_nil]
    have h : min p 2 = 0 ∨ min p 2 = 1 ∨ min p 2 = 2 := by omega
    rcases h with h | h | h <;> rw [h] <;> decide
  | cons c t ih =>
    intro p
    by_cases hc : c = '\n'
    · subst hc
      rw [collapseAux_cons_nl]
      exact ih (p + 1)
    · rw [collapseAux_cons_of_ne hc]
      have hX : collapseAux 0 (collapseAux 0 t) = collapseAux 0 t := ih 0
      have h : min p 2 = 0 ∨ min p 2 = 1 ∨ min p 2 = 2 := by omega
      rcases h with h | h | h <;> rw [h]
      · show collapseAux 0 (c :: collapseAux 0 t) = c :: collapseAux 0 t
        rw [collapseAux_cons_of_ne hc, hX]
        simp
      · show collapseAux 0 (['\n'] ++ c :: collapseAux 0 t) = ['\n'] ++ c :: collapseAux 0 t
        rw [List.singleton_append, collapseAux_cons_nl,
          collapseAux_head_not_nl (by simpa using hc) 1,
          collapseAux_cons_of_ne hc, hX]
        simp
      · show collapseAux 0 (['\n', '\n'] ++ c :: collapseAux 0 t) =
          ['\n', '\n'] ++ c :: collapseAux 0 t
        rw [show (['\n', '\n'] ++ c :: collapseAux 0 t) =
            '\n' :: '\n' :: (c :: collapseAux 0 t) from rfl,
          collapseAux_cons_nl, collapseAux_cons_nl,
          collapseAux_head_not_nl (by simpa using hc) 2,
          collapseAux_cons_of_ne hc, hX]
        simp

theorem collapseChars_idem (s : List Char) :
    collapseChars (collapseChars s) = collapseChars s :=
  collapseChars_collapseAux s 0

theorem hasNNN_append_right (a : List Char) {b : List Char} (hb : hasNNN b = true) :
    hasNNN (a ++ b) = true := by
  induction a with
  | nil => simpa
  | cons c t ih => simp [hasNNN, ih]

theorem collapseAux_eq_of_no_triple :
    ∀ (s : List Char) (p : Nat), p ≤ 2 →
      hasNNN (List.replicate p '\n' ++ s) = false →
      collapseAux p s = List.replicate p '\n' ++ s := by
  intro s
  induction s with
  | nil =>
    intro p hp _
    simp [collapseAux_nil, Nat.min_eq_left hp]
  | cons c t ih =>
    intro p hp h
    by_cases hc : c = '\n'
    · subst hc
      have hrw : List.replicate p '\n' ++ '\n' :: t = List.replicate (p + 1) '\n' ++ t := by
        rw [List.replicate_succ']
        simp
      have hp1 : p + 1 ≤ 2 := by
        by_contra hgt
        have hp2 : p = 2 := by omega
        subst hp2
        rw [hrw] at h
        simp [List.replicate, hasNNN, startsNlNl] at h
      rw [hrw] at h ⊢
      rw [collapseAux_cons_nl]
      exact ih (p + 1) hp1 h
    · have h1 : hasNNN (c :: t) = false := by
        by_contra hne
        have htr : hasNNN (c :: t) = true := by
          revert hne
          cases hasNNN (c :: t) <;> simp
        rw [hasNNN_append_right (List.replicate p '\n') htr] at h
        exact absurd h (by simp)
      have ht : hasNNN t = false := by
        have h2 := h1
        simp only [hasNNN, Bool.or_eq_false_iff] at h2
        exact h2.2
      rw [collapseAux_cons_of_ne hc, Nat.min_eq_left hp,
        ih 0 (by omega) (by simpa using ht)]
      simp

theorem collapseChars_eq_of_no_triple {s : List Char} (h : hasNNN s = false) :
    collapseChars s = s := by
  simpa using collapseAux_eq_of_no_triple s 0 (by omega) (by simpa using h)

/-! ## Non-empty lines are preserved by collapsing -/

theorem segsAux_eq_filter (s : List Char) :
    ∀ acc, segsAux s acc = (splitAux s acc).filter (fun l => !l.isEmpty) := by
  induction s with
  | nil =>
    intro acc
    cases acc with
    | nil => simp [segsAux, splitAux]
    | cons a t => simp [segsAux, splitAux]
  | cons c cs ih =>
    intro acc
    by_cases hc : c = '\n'
    · subst hc
      rw [show segsAux ('\n' :: cs) acc =
        (if acc.isEmpty then [] else [acc.reverse]) ++ segsAux cs [] from by simp [segsAux]]
      rw [show splitAux ('\n' :: cs) acc = acc.reverse :: splitAux cs [] from by simp [splitAux]]
      rw [ih [], List.filter_cons]
      cases acc with
      | nil => simp
      | cons a t => simp
    · simp only [segsAux, splitAux, if_neg hc]
      exact ih (c :: acc)

theorem segsAux_replicate_nl :
    ∀ (k : Nat), 1 ≤ k → ∀ (t acc : List Char),
      segsAux (List.replicate k '\n' ++ t) acc =
        (if acc.isEmpty then [] else [acc.reverse]) ++ segsAux t [] := by
  intro k
  induction k with
  | zero => omega
  | succ k ihk =>
    intro _ t acc
    rw [List.replicate_succ, List.cons_append]
    rw [show segsAux ('\n' :: (List.replicate k '\n' ++ t)) acc =
      (if acc.isEmpty then [] else [acc.reverse]) ++
        segsAux (List.replicate k '\n' ++ t) [] from by simp [segsAux]]
    rcases Nat.eq_zero_or_pos k with hk0 | hk1
    · subst hk0; simp
    · rw [ihk hk1 t []]; simp

theorem segsAux_collapseAux (s : List Char) :
    (∀ acc, segsAux (collapseAux 0 s) acc = segsAux s acc) ∧
    (∀ p acc, segsAux (collapseAux (p + 1) s) acc =
      (if acc.isEmpty then [] else [acc.reverse]) ++ segsAux s []) := by
  induction s with
  | nil =>
    constructor
    · intro acc
      rw [collapseAux_nil]
      simp
    · intro p acc
      rw [collapseAux_nil]
      have hmin : 1 ≤ min (p + 1) 2 := by omega
      rw [show List.replicate (min (p + 1) 2) '\n' =
        List.replicate (min (p + 1) 2) '\n' ++ [] from by simp]
      rw [segsAux_replicate_nl _ hmin [] acc]
  | cons c t ih =>
    obtain ⟨ih0, ih1⟩ := ih
    constructor
    · intro acc
      by_cases hc : c = '\n'
      · subst hc
        rw [collapseAux_cons_nl, ih1 0 acc]
        simp [segsAux]
      · rw [collapseAux_cons_of_ne hc]
        have h0 : min 0 2 = 0 := by omega
        rw [h0, List.replicate_zero, List.nil_append]
        rw [show segsAux (c :: collapseAux 0 t) acc =
          segsAux (collapseAux 0 t) (c :: acc) from by simp [segsAux, hc]]
        rw [ih0 (c :: acc)]
        simp [segsAux, hc]
    · intro p acc
      by_cases hc : c = '\n'
      · subst hc
        rw [collapseAux_cons_nl, ih1 (p + 1) acc]
        simp [segsAux]
      · rw [collapseAux_cons_of_ne hc]
        rw [segsAux_replicate_nl _ (by omega) _ acc]
        rw [show segsAux (c :: collapseAux 0 t) [] =
          segsAux (collapseAux 0 t) [c] from by simp [segsAux, hc]]
        rw [ih0 [c]]
        simp [segsAux, hc]

theorem filter_split_collapse (s : List Char) :
    (splitLinesL (collapseChars s)).filter (fun l => !l.isEmpty) =
      (splitLinesL s).filter (fun l => !l.isEmpty) := by
  have h1 := segsAux_eq_filter (collapseChars s) []
  have h2 := segsAux_eq_filter s []
  have h3 := (segsAux_collapseAux s).1 []
  rw [splitLinesL, splitLinesL, ← h1, ← h2]
  exact h3

/-! ## Heads and last elements of joined line lists -/

theorem joinLinesL_concat (A : List (List Char)) (x : List Char) :
    joinLinesL (A ++ [x]) = if A.isEmpty then x else joinLinesL A ++ '\n' :: x := by
  cases A with
  | nil => simp [joinLinesL]
  | cons a t =>
    rw [joinLinesL_append (by simp) (by simp)]
    simp [joinLinesL]

theorem joinLinesL_getLast? {P : List (List Char)} (hP : P ≠ []) (hx : P.getLast hP ≠ []) :
    (joinLinesL P).getLast? = (P.getLast hP).getLast? := by
  obtain ⟨c, hc⟩ : ∃ c, (P.getLast hP).getLast? = some c :=
    ⟨(P.getLast hP).getLast hx, List.getLast?_eq_getLast _ hx⟩
  conv_lhs => rw [← List.dropLast_append_getLast hP]
  rw [joinLinesL_concat]
  by_cases h : P.dropLast.isEmpty
  · simp [h]
  · rw [if_neg h, List.getLast?_append,
      show ('\n' :: P.getLast hP) = ['\n'] ++ P.getLast hP from rfl,
      List.getLast?_append, hc]
    rfl

theorem joinLinesL_head? {S : List (List Char)} {x : List Char} (hS : S.head? = some x)
    (hx : x ≠ []) : (joinLinesL S).head? = x.head? := by
  cases S with
  | nil => simp at hS
  | cons a T =>
    have hax : a = x := by simpa using hS
    subst hax
    cases T with
    | nil => simp [joinLinesL]
    | cons b T' =>
      rw [joinLinesL_cons _ _ (by simp)]
      cases a with
      | nil => exact absurd rfl hx
      | cons c cs => rfl

/-! ## Properties of the last-occurrence scan -/

theorem findLastIdx_cons (p : List Char → Bool) (x : List Char) (t : List (List Char)) :
    findLastIdx p (x :: t) =
      match findLastIdx p t with
      | some j => some (j + 1)
      | none => if p x then some 0 else none := rfl

theorem findLastIdx_eq_none {p : List Char → Bool} {L : List (List Char)}
    (h : ∀ l ∈ L, p l = false) : findLastIdx p L = none := by
  induction L with
  | nil => rfl
  | cons x t ih =>
    rw [findLastIdx_cons, ih (fun l hl => h l (List.mem_cons_of_mem _ hl))]
    simp [h x (by simp)]

theorem findLastIdx_none_forall {p : List Char → Bool} {L : List (List Char)}
    (h : findLastIdx p L = none) : ∀ l ∈ L, p l = false := by
  induction L with
  | nil => simp
  | cons x t ih =>
    rw [findLastIdx_cons] at h
    cases ht : findLastIdx p t with
    | some j => rw [ht] at h; simp at h
    | none =>
      rw [ht] at h
      intro l hl
      rcases List.mem_cons.mp hl with h1 | h1
      · subst h1
        by_cases hx : p l = true
        · rw [if_pos hx] at h; simp at h
        · simpa using hx
      · exact ih ht l h1

theorem findLastIdx_append_none {p : List Char → Bool} {R : List (List Char)}
    (hR : findLastIdx p R = none) (X : List (List Char)) :
    findLastIdx p (X ++ R) = findLastIdx p X := by
  induction X with
  | nil => simpa
  | cons x t ih =>
    rw [List.cons_append, findLastIdx_cons, ih, findLastIdx_cons]

theorem findLastIdx_append_some {p : List Char → Bool} {R : List (List Char)} {j : Nat}
    (hR : findLastIdx p R = some j) (X : List (List Char)) :
    findLastIdx p (X ++ R) = some (X.length + j) := by
  induction X with
  | nil => simpa
  | cons x t ih =>
    rw [List.cons_append, findLastIdx_cons, ih]
    show some (t.length + j + 1) = some ((x :: t).length + j)
    have hlen : (x :: t).length = t.length + 1 := rfl
    exact congrArg some (by omega)

theorem findLastIdx_getLast {p : List Char → Bool} {X : List (List Char)} (hX : X ≠ [])
    (h : p (X.getLast hX) = true) : findLastIdx p X = some (X.length - 1) := by
  induction X with
  | nil => exact absurd rfl hX
  | cons x t ih =>
    cases t with
    | nil =>
      have hx : p x = true := by simpa [List.getLast] using h
      simp [findLastIdx_cons, findLastIdx, hx]
    | cons y t' =>
      have hg : (x :: y :: t').getLast (by simp) = (y :: t').getLast (by simp) :=
        List.getLast_cons (by simp)
      have h' : p ((y :: t').getLast (by simp)) = true := by
        rw [← hg]
        exact h
      rw [findLastIdx_cons, ih (by simp) h']
      show some ((y :: t').length - 1 + 1) = some ((x :: y :: t').length - 1)
      exact congrArg some (by simp [List.length_cons])

theorem findLastIdx_some_spec {p : List Char → Bool} {L : List (List Char)} {i : Nat}
    (h : findLastIdx p L = some i) :
    ∃ hi : i < L.length, p (L.get ⟨i, hi⟩) = true ∧
      ∀ j (hj : j < L.length), i < j → p (L.get ⟨j, hj⟩) = false := by
  induction L generalizing i with
  | nil => simp [findLastIdx] at h
  | cons x t ih =>
    rw [findLastIdx_cons] at h
    cases ht : findLastIdx p t with
    | some j =>
      rw [ht] at h
      have hij : i = j + 1 := by
        have := h
        simp at this
        omega
      subst hij
      obtain ⟨hj, hpj, hafter⟩ := ih ht
      refine ⟨by simpa using Nat.succ_lt_succ hj, ?_, ?_⟩
      · simpa using hpj
      · intro k hk hik
        cases k with
        | zero => omega
        | succ k' =>
          have hk' : k' < t.length := by simpa using hk
          have hres := hafter k' hk' (by omega)
          simpa using hres
    | none =>
      rw [ht] at h
      by_cases hx : p x = true
      · rw [if_pos hx] at h
        have hi0 : i = 0 := by
          have := h
          simp at this
          omega
        subst hi0
        refine ⟨by simp, by simpa using hx, ?_⟩
        intro k hk h0k
        cases k with
        | zero => omega
        | succ k' =>
          have hk' : k' < t.length := by simpa using hk
          have hmem : t.get ⟨k', hk'⟩ ∈ t := List.get_mem t k' hk'
          have hres := findLastIdx_none_forall ht _ hmem
          simpa using hres
      · rw [if_neg hx] at h
        simp at h

/-! ## Properties of the substring test -/

theorem lineContains_nil {m : List Char} (hm : m ≠ []) : lineContains [] m = false := by
  cases m with
  | nil => exact absurd rfl hm
  | cons c t => rfl

theorem lineContains_refl (m : List Char) : lineContains m m = true := by
  cases m with
  | nil => rfl
  | cons c t =>
    rw [lineContains]
    have hpre : (c :: t).isPrefixOf (c :: t) = true := by
      rw [List.isPrefixOf_iff_prefix]
    simp [hpre]

theorem length_le_of_lineContains {h n : List Char} (hc : lineContains h n = true) :
    n.length ≤ h.length := by
  induction h with
  | nil =>
    cases n with
    | nil => simp
    | cons c t => simp [lineContains] at hc
  | cons c t ih =>
    rw [lineContains] at hc
    simp only [Bool.or_eq_true] at hc
    rcases hc with hpre | hrec
    · exact (List.isPrefixOf_iff_prefix.mp hpre).length_le
    · have := ih hrec
      simp only [List.length_cons]
      omega

/-! ## Marker string facts -/

theorem markerStartL_eq (id : List Char) :
    markerStartL id = '/' :: '*' :: ' ' :: (id ++ " import start */".data) := rfl

theorem markerEndL_eq (id : List Char) :
    markerEndL id = '/' :: '*' :: ' ' :: (id ++ " import end */".data) := rfl

theorem markerStartL_ne_nil (id : List Char) : markerStartL id ≠ [] := by
  rw [markerStartL_eq]; simp

theorem markerEndL_ne_nil (id : List Char) : markerEndL id ≠ [] := by
  rw [markerEndL_eq]; simp

theorem nl_not_mem_markerStartL {id : List Char} (hid : '\n' ∉ id) :
    '\n' ∉ markerStartL id := by
  rw [markerStartL_eq]
  intro hmem
  simp only [List.mem_cons, List.mem_append] at hmem
  rcases hmem with h | h | h | h | h
  · exact absurd h (by decide)
  · exact absurd h (by decide)
  · exact absurd h (by decide)
  · exact hid h
  · exact absurd h (by decide)

theorem nl_not_mem_markerEndL {id : List Char} (hid : '\n' ∉ id) :
    '\n' ∉ markerEndL id := by
  rw [markerEndL_eq]
  intro hmem
  simp only [List.mem_cons, List.mem_append] at hmem
  rcases hmem with h | h | h | h | h
  · exact absurd h (by decide)
  · exact absurd h (by decide)
  · exact absurd h (by decide)
  · exact hid h
  · exact absurd h (by decide)

theorem markerEnd_no_markerStart (id : List Char) :
    lineContains (markerEndL id) (markerStartL id) = false := by
  by_contra hne
  have htr : lineContains (markerEndL id) (markerStartL id) = true := by
    revert hne
    cases lineContains (markerEndL id) (markerStartL id) <;> simp
  have hlen := length_le_of_lineContains htr
  have h1 : (markerStartL id).length = id.length + 19 := by
    rw [markerStartL_eq]
    have hsuf : (" import start */".data).length = 16 := rfl
    simp [List.length_append, hsuf]
  have h2 : (markerEndL id).length = id.length + 17 := by
    rw [markerEndL_eq]
    have hsuf : (" import end */".data).length = 14 := rfl
    simp [List.length_append, hsuf]
  omega

/-! ## Structure of collapsed joins -/

theorem head?_ne_some_nl {x : List Char} (hx : x ≠ []) (hnl : '\n' ∉ x) :
    x.head? ≠ some '\n' := by
  cases x with
  | nil => exact absurd rfl hx
  | cons c cs =>
    intro hcn
    have hc : c = '\n' := by simpa using hcn
    exact hnl (by simp [hc])

theorem getLast?_ne_nl {x : List Char} (hx : x ≠ []) (hnl : '\n' ∉ x) :
    ∃ c, x.getLast? = some c ∧ c ≠ '\n' :=
  ⟨x.getLast hx, List.getLast?_eq_getLast _ hx,
    fun hcn => hnl (hcn ▸ List.getLast_mem hx)⟩

theorem mem_empty_or_filter {l : List (List Char)} {x : List Char} (hx : x ∈ l) :
    x = [] ∨ x ∈ l.filter (fun t => !t.isEmpty) := by
  by_cases h : x = []
  · exact Or.inl h
  · exact Or.inr (List.mem_filter.mpr ⟨hx, by simp [h]⟩)

theorem collapse_join_nonempty {ls : List (List Char)} (hne : ls ≠ [])
    (h1 : ∀ l ∈ ls, l ≠ []) (h2 : ∀ l ∈ ls, '\n' ∉ l) :
    collapseChars (joinLinesL ls) = joinLinesL ls := by
  induction ls with
  | nil => exact absurd rfl hne
  | cons a t ih =>
    cases t with
    | nil => simpa [joinLinesL] using collapseChars_no_nl (h2 a (by simp))
    | cons b T =>
      rw [joinLinesL_cons a _ (by simp)]
      obtain ⟨c, hc1, hc2⟩ := getLast?_ne_nl (h1 a (by simp)) (h2 a (by simp))
      rw [collapseChars, collapseAux_append_left hc1 hc2 0,
        collapseAux_no_nl (h2 a (by simp)) 0, collapseAux_cons_nl]
      have hbh : (joinLinesL (b :: T)).head? ≠ some '\n' := by
        rw [joinLinesL_head? (show (b :: T).head? = some b from rfl) (h1 b (by simp))]
        exact head?_ne_some_nl (h1 b (by simp)) (h2 b (by simp))
      rw [collapseAux_head_not_nl hbh 1]
      have ihres : collapseAux 0 (joinLinesL (b :: T)) = joinLinesL (b :: T) :=
        ih (by simp) (fun l hl => h1 l (List.mem_cons_of_mem _ hl))
          (fun l hl => h2 l (List.mem_cons_of_mem _ hl))
      rw [ihres]
      simp

theorem split_collapse_join_last {P : List (List Char)} (hP : P ≠ [])
    (hnl : ∀ l ∈ P, '\n' ∉ l) (hxne : P.getLast hP ≠ []) :
    ∃ X0, splitLinesL (collapseChars (joinLinesL P)) = X0 ++ [P.getLast hP] := by
  have hxnl : '\n' ∉ P.getLast hP := hnl _ (List.getLast_mem hP)
  have hdec : P.dropLast ++ [P.getLast hP] = P := List.dropLast_append_getLast hP
  by_cases hd : P.dropLast.isEmpty
  · have hdnil : P.dropLast = [] := by simpa using hd
    have hP1 : P = [P.getLast hP] := by
      conv_lhs => rw [← hdec]
      rw [hdnil]
      rfl
    refine ⟨[], ?_⟩
    conv_lhs => rw [hP1]
    rw [show joinLinesL [P.getLast hP] = P.getLast hP from rfl,
      collapseChars_no_nl hxnl, splitLinesL_no_nl hxnl]
    rfl
  · have hjoin : joinLinesL P = (joinLinesL P.dropLast ++ ['\n']) ++ P.getLast hP := by
      conv_lhs => rw [← hdec]
      rw [joinLinesL_concat, if_neg hd]
      simp
    have hxhead : (P.getLast hP).head? ≠ some '\n' := head?_ne_some_nl hxne hxnl
    have hcol : collapseChars (joinLinesL P) =
        collapseChars (joinLinesL P.dropLast ++ ['\n']) ++ P.getLast hP := by
      rw [hjoin, collapseChars, collapseAux_append_right hxhead 0,
        collapseAux_no_nl hxnl 0]
      rfl
    have hune : collapseChars (joinLinesL P.dropLast ++ ['\n']) ≠ [] ∧
        (collapseChars (joinLinesL P.dropLast ++ ['\n'])).getLast? = some '\n' := by
      have hlast : (joinLinesL P.dropLast ++ ['\n']).getLast? = some '\n' :=
        List.getLast?_concat _
      have hres := collapseAux_getLast_nl hlast 0
      refine ⟨?_, hres⟩
      intro h0
      rw [collapseChars] at h0
      rw [h0] at hres
      simp at hres
    obtain ⟨hune1, hune2⟩ := hune
    have hu : (collapseChars (joinLinesL P.dropLast ++ ['\n'])).dropLast ++ ['\n'] =
        collapseChars (joinLinesL P.dropLast ++ ['\n']) := by
      have hgl := List.dropLast_append_getLast hune1
      have hgl2 : (collapseChars (joinLinesL P.dropLast ++ ['\n'])).getLast hune1 = '\n' := by
        have := List.getLast?_eq_getLast _ hune1
        rw [hune2] at this
        exact (Option.some.injEq _ _ ▸ this).symm
      rw [hgl2] at hgl
      exact hgl
    refine ⟨splitLinesL (collapseChars (joinLinesL P.dropLast ++ ['\n'])).dropLast, ?_⟩
    rw [hcol]
    conv_lhs => rw [← hu]
    rw [show ((collapseChars (joinLinesL P.dropLast ++ ['\n'])).dropLast ++ ['\n']) ++
        P.getLast hP =
        (collapseChars (joinLinesL P.dropLast ++ ['\n'])).dropLast ++
          '\n' :: P.getLast hP from by simp]
    rw [splitLinesL_cat, splitLinesL_no_nl hxnl]

theorem split_collapse_join_head {S : List (List Char)} (hS : S ≠ [])
    (hnl : ∀ l ∈ S, '\n' ∉ l) (hhne : S.head hS ≠ []) :
    ∃ Z, splitLinesL (collapseChars (joinLinesL S)) = S.head hS :: Z ∧
      ∀ l ∈ Z, l = [] ∨ l ∈ S.tail := by
  cases S with
  | nil => exact absurd rfl hS
  | cons sh St =>
    have hshne : sh ≠ [] := hhne
    have hshnl : '\n' ∉ sh := hnl sh (by simp)
    cases St with
    | nil =>
      refine ⟨[], ?_, by simp⟩
      rw [show joinLinesL [sh] = sh from rfl, collapseChars_no_nl hshnl,
        splitLinesL_no_nl hshnl]
      rfl
    | cons b T =>
      have hjoin : joinLinesL (sh :: b :: T) = sh ++ '\n' :: joinLinesL (b :: T) :=
        joinLinesL_cons _ _ (by simp)
      obtain ⟨c, hc1, hc2⟩ := getLast?_ne_nl hshne hshnl
      obtain ⟨w, hw⟩ := collapseAux_pos_head (joinLinesL (b :: T)) 0
      have hcol : collapseChars (joinLinesL (sh :: b :: T)) = sh ++ '\n' :: w := by
        rw [hjoin, collapseChars, collapseAux_append_left hc1 hc2 0,
          collapseAux_no_nl hshnl 0, collapseAux_cons_nl, hw]
        rfl
      refine ⟨splitLinesL w, ?_, ?_⟩
      · rw [hcol, splitLinesL_cat, splitLinesL_no_nl hshnl]
        rfl
      · intro l hl
        rcases mem_empty_or_filter hl with h0 | h1
        · exact Or.inl h0
        · right
          have hfY : (splitLinesL (collapseChars (joinLinesL (sh :: b :: T)))).filter
              (fun t => !t.isEmpty) =
              (sh :: b :: T).filter (fun t => !t.isEmpty) := by
            rw [filter_split_collapse, splitLinesL_joinLinesL (by simp) hnl]
          rw [hcol, splitLinesL_cat, splitLinesL_no_nl hshnl] at hfY
          rw [show ([sh] ++ splitLinesL w) = sh :: splitLinesL w from rfl] at hfY
          rw [List.filter_cons_of_pos (by simp [hshne]),
            List.filter_cons_of_pos (by simp [hshne])] at hfY
          have hfw : (splitLinesL w).filter (fun t => !t.isEmpty) =
              (b :: T).filter (fun t => !t.isEmpty) := by
            simp only [List.cons.injEq] at hfY
            exact hfY.2
          have hmem : l ∈ (b :: T).filter (fun t => !t.isEmpty) := by
            rw [← hfw]
            exact h1
          exact List.mem_of_mem_filter hmem

/-! ## Branch lemmas for the operations -/

theorem updateStylesCore_eq_of_located {mS mE : List Char} {ins : Nat} {body content : List Char}
    {s e : Nat}
    (hs : findLastIdx (fun l => lineContains l mS) (splitLinesL content) = some s)
    (he : findLastIdx (fun l => lineContains l mE) (splitLinesL content) = some e)
    (hlt : s < e) :
    updateStylesCore mS mE ins body content =
      collapseChars (joinLinesL
        ((splitLinesL content).take (s + 1) ++ [body] ++ (splitLinesL content).drop e)) := by
  simp only [updateStylesCore]
  rw [hs, he]
  show collapseChars (joinLinesL (if s < e then
      (splitLinesL content).take (s + 1) ++ [body] ++ (splitLinesL content).drop e
    else insertBlock mS mE ins body (splitLinesL content))) = _
  rw [if_pos hlt]

theorem updateStylesCore_eq_insert {mS mE : List Char} {ins : Nat} {body content : List Char}
    (h : ∀ l ∈ splitLinesL content, lineContains l mS = false ∧ lineContains l mE = false) :
    updateStylesCore mS mE ins body content =
      collapseChars (joinLinesL (insertBlock mS mE ins body (splitLinesL content))) := by
  have hs : findLastIdx (fun l => lineContains l mS) (splitLinesL content) = none :=
    findLastIdx_eq_none (fun l hl => (h l hl).1)
  have he : findLastIdx (fun l => lineContains l mE) (splitLinesL content) = none :=
    findLastIdx_eq_none (fun l hl => (h l hl).2)
  simp only [updateStylesCore]
  rw [hs, he]

theorem removeMarkersCore_eq_of_located {mS mE : List Char} {content : List Char}
    {s e : Nat} (deleteImports : Bool)
    (hs : findLastIdx (fun l => lineContains l mS) (splitLinesL content) = some s)
    (he : findLastIdx (fun l => lineContains l mE) (splitLinesL content) = some e)
    (hlt : s < e) :
    removeMarkersCore mS mE deleteImports content =
      some (collapseChars (joinLinesL
        ((splitLinesL content).take s ++
          (if deleteImports then [] else
            (((splitLinesL content).drop (s + 1)).take (e - (s + 1))).filter
              (fun l => !(lineContains l "/*".data) || !(lineContains l "*/".data))) ++
          (splitLinesL content).drop (e + 1)))) := by
  simp only [removeMarkersCore]
  rw [hs, he]
  show (if s < e then some _ else none) = _
  rw [if_pos hlt]

/-! ## The main fixpoint lemma

Any text of the shape `collapse (join (P ++ body-lines ++ S))` — i.e. the
output of a successful region replacement or of a fresh block insertion —
is a fixpoint of `updateStylesCore`, provided the last line of `P`
carries the start marker, the first line of `S` carries the end marker,
no line after those carries the same marker again, and the body lines are
free of both markers and of blank lines (or the body is empty). -/

theorem updateStylesCore_fixpoint
    (mS mE body : List Char) (ins : Nat)
    (P S : List (List Char)) (hP : P ≠ []) (hS : S ≠ [])
    (hPnl : ∀ l ∈ P, '\n' ∉ l) (hSnl : ∀ l ∈ S, '\n' ∉ l)
    (hmS : mS ≠ []) (hmE : mE ≠ [])
    (hPlast : lineContains (P.getLast hP) mS = true)
    (hShead : lineContains (S.head hS) mE = true)
    (hSnoS : ∀ l ∈ S, lineContains l mS = false)
    (hStailNoE : ∀ l ∈ S.tail, lineContains l mE = false)
    (hBnoS : ∀ l ∈ splitLinesL body, lineContains l mS = false)
    (hBnoE : ∀ l ∈ splitLinesL body, lineContains l mE = false)
    (hBody : body = [] ∨ ∀ l ∈ splitLinesL body, l ≠ []) :
    updateStylesCore mS mE ins body
        (collapseChars (joinLinesL (P ++ (splitLinesL body ++ S)))) =
      collapseChars (joinLinesL (P ++ (splitLinesL body ++ S))) := by
  have hBLne : splitLinesL body ≠ [] := splitLinesL_ne_nil body
  have hBLnl : ∀ l ∈ splitLinesL body, '\n' ∉ l := fun l hl => no_nl_of_mem_splitLinesL l hl
  have hxPne : P.getLast hP ≠ [] := by
    intro h0
    rw [h0, lineContains_nil hmS] at hPlast
    simp at hPlast
  have hxSne : S.head hS ≠ [] := by
    intro h0
    rw [h0, lineContains_nil hmE] at hShead
    simp at hShead
  have hBS : splitLinesL body ++ S ≠ [] := by
    intro hh
    exact hBLne (List.append_eq_nil.mp hh).1
  -- decompose the join
  have hjoin : joinLinesL (P ++ (splitLinesL body ++ S)) =
      joinLinesL P ++ '\n' :: (body ++ '\n' :: joinLinesL S) := by
    rw [joinLinesL_append hP hBS, joinLinesL_append hBLne hS, join_splitLinesL]
  obtain ⟨cP, hcP, hcPnl⟩ := getLast?_ne_nl hxPne (hPnl _ (List.getLast_mem hP))
  have hjPlast : (joinLinesL P).getLast? = some cP := by
    rw [joinLinesL_getLast? hP hxPne, hcP]
  have hjSheadne : (joinLinesL S).head? ≠ some '\n' := by
    rw [joinLinesL_head? (List.head?_eq_head hS) hxSne]
    exact head?_ne_some_nl hxSne (hSnl _ (List.head_mem hS))
  -- distribute the collapse
  have hstep1 : collapseChars (joinLinesL (P ++ (splitLinesL body ++ S))) =
      collapseChars (joinLinesL P) ++
        collapseAux 0 ('\n' :: (body ++ '\n' :: joinLinesL S)) := by
    rw [hjoin, collapseChars, collapseAux_append_left hjPlast hcPnl 0]
    rfl
  have hmid : collapseAux 0 ('\n' :: (body ++ '\n' :: joinLinesL S)) =
      '\n' :: (body ++ '\n' :: collapseChars (joinLinesL S)) := by
    rw [collapseAux_cons_nl]
    rcases hBody with hb0 | hbne
    · subst hb0
      rw [List.nil_append, collapseAux_cons_nl, collapseAux_head_not_nl hjSheadne 2]
      simp [collapseChars]
    · have hbodyne : body ≠ [] := by
        intro h0
        have hmem : ([] : List Char) ∈ splitLinesL body := by
          rw [h0, show splitLinesL ([] : List Char) = [[]] from rfl]
          simp
        exact hbne [] hmem rfl
      have hbody_join : joinLinesL (splitLinesL body) = body := join_splitLinesL body
      have hbhead : body.head? ≠ some '\n' := by
        rw [← hbody_join,
          joinLinesL_head? (List.head?_eq_head hBLne) (hbne _ (List.head_mem hBLne))]
        exact head?_ne_some_nl (hbne _ (List.head_mem hBLne)) (hBLnl _ (List.head_mem hBLne))
      obtain ⟨cB, hcB0, hcBnl⟩ :=
        getLast?_ne_nl (hbne _ (List.getLast_mem hBLne)) (hBLnl _ (List.getLast_mem hBLne))
      have hcB : body.getLast? = some cB := by
        rw [← hbody_join, joinLinesL_getLast? hBLne (hbne _ (List.getLast_mem hBLne)), hcB0]
      have hbodyfix : collapseAux 0 body = body := by
        have := collapse_join_nonempty hBLne hbne hBLnl
        rw [hbody_join] at this
        exact this
      have hheadcat : (body ++ '\n' :: joinLinesL S).head? ≠ some '\n' := by
        rw [List.head?_append_of_ne_nil _ hbodyne]
        exact hbhead
      rw [collapseAux_head_not_nl hheadcat 1,
        collapseAux_append_left hcB hcBnl 0, hbodyfix, collapseAux_cons_nl,
        collapseAux_head_not_nl hjSheadne 1]
      simp [collapseChars]
  have hcontent : collapseChars (joinLinesL (P ++ (splitLinesL body ++ S))) =
      collapseChars (joinLinesL P) ++
        '\n' :: (body ++ '\n' :: collapseChars (joinLinesL S)) := by
    rw [hstep1, hmid]
  -- the lines of the produced content
  have hlines : splitLinesL (collapseChars (joinLinesL (P ++ (splitLinesL body ++ S)))) =
      splitLinesL (collapseChars (joinLinesL P)) ++
        (splitLinesL body ++ splitLinesL (collapseChars (joinLinesL S))) := by
    rw [hcontent, splitLinesL_cat, splitLinesL_cat]
  obtain ⟨X0, hX0⟩ := split_collapse_join_last hP hPnl hxPne
  obtain ⟨Z, hZ1, hZ2⟩ := split_collapse_join_head hS hSnl hxSne
  -- no start marker to the right of the anchor
  have hnoSright : ∀ l ∈ splitLinesL body ++ splitLinesL (collapseChars (joinLinesL S)),
      (fun l => lineContains l mS) l = false := by
    intro l hl
    rcases List.mem_append.mp hl with hbl | hyl
    · exact hBnoS l hbl
    · rw [hZ1] at hyl
      rcases List.mem_cons.mp hyl with h1 | h1
      · subst h1
        exact hSnoS _ (List.head_mem hS)
      · rcases hZ2 l h1 with h2 | h2
        · subst h2
          exact lineContains_nil hmS
        · exact hSnoS l (List.mem_of_mem_tail h2)
  -- locate the start marker
  have hfS : findLastIdx (fun l => lineContains l mS)
      (splitLinesL (collapseChars (joinLinesL (P ++ (splitLinesL body ++ S))))) =
      some ((X0 ++ [P.getLast hP]).length - 1) := by
    rw [hlines, hX0, findLastIdx_append_none (findLastIdx_eq_none hnoSright)]
    refine findLastIdx_getLast (by simp) ?_
    have hgl : (X0 ++ [P.getLast hP]).getLast (by simp) = P.getLast hP := by
      rw [List.getLast_append]
      simp
    rw [hgl]
    exact hPlast
  -- locate the end marker
  have hfEz : findLastIdx (fun l => lineContains l mE)
      (splitLinesL (collapseChars (joinLinesL S))) = some 0 := by
    rw [hZ1, findLastIdx_cons]
    rw [findLastIdx_eq_none (fun l hl => by
      rcases hZ2 l hl with h2 | h2
      · subst h2
        exact lineContains_nil hmE
      · exact hStailNoE l h2)]
    simp [hShead]
  have hfE : findLastIdx (fun l => lineContains l mE)
      (splitLinesL (collapseChars (joinLinesL (P ++ (splitLinesL body ++ S))))) =
      some ((splitLinesL (collapseChars (joinLinesL P))).length +
        (splitLinesL body).length) := by
    rw [hlines, ← List.append_assoc, findLastIdx_append_some hfEz]
    rw [List.length_append]
    simp
  -- index arithmetic
  have hXpos : 1 ≤ (X0 ++ [P.getLast hP]).length := by simp
  have hXlen : (splitLinesL (collapseChars (joinLinesL P))).length =
      (X0 ++ [P.getLast hP]).length := by rw [hX0]
  have hlt : (X0 ++ [P.getLast hP]).length - 1 <
      (splitLinesL (collapseChars (joinLinesL P))).length + (splitLinesL body).length := by
    rw [hXlen]
    have := splitLinesL_ne_nil body
    have hb1 : 1 ≤ (splitLinesL body).length := List.length_pos.mpr this
    omega
  -- reduce the operation
  rw [updateStylesCore_eq_of_located hfS hfE hlt]
  have htake : (splitLinesL (collapseChars (joinLinesL (P ++ (splitLinesL body ++ S))))).take
      ((X0 ++ [P.getLast hP]).length - 1 + 1) =
      splitLinesL (collapseChars (joinLinesL P)) := by
    rw [hlines]
    have harith : (X0 ++ [P.getLast hP]).length - 1 + 1 =
        (splitLinesL (collapseChars (joinLinesL P))).length := by
      rw [hXlen]; omega
    rw [harith, List.take_left]
  have hdrop : (splitLinesL (collapseChars (joinLinesL (P ++ (splitLinesL body ++ S))))).drop
      ((splitLinesL (collapseChars (joinLinesL P))).length + (splitLinesL body).length) =
      splitLinesL (collapseChars (joinLinesL S)) := by
    rw [hlines, ← List.append_assoc, ← List.length_append, List.drop_left]
  rw [htake, hdrop]
  -- reassemble
  have hYne : splitLinesL (collapseChars (joinLinesL S)) ≠ [] := splitLinesL_ne_nil _
  have hXne : splitLinesL (collapseChars (joinLinesL P)) ≠ [] := splitLinesL_ne_nil _
  have hsplice : joinLinesL (splitLinesL (collapseChars (joinLinesL P)) ++ [body] ++
      splitLinesL (collapseChars (joinLinesL S))) =
      collapseChars (joinLinesL (P ++ (splitLinesL body ++ S))) := by
    rw [joinLinesL_splice, List.append_assoc,
      joinLinesL_append hXne (by
        intro hh
        exact hYne (List.append_eq_nil.mp hh).2),
      joinLinesL_append (splitLinesL_ne_nil body) hYne,
      join_splitLinesL, join_splitLinesL, join_splitLinesL]
    exact hcontent.symm
  rw [hsplice, collapseChars_idem]

theorem mem_drop_spec {α : Type} {L : List α} {n : Nat} {x : α} (hx : x ∈ L.drop n) :
    ∃ i, ∃ hi : i < L.length, n ≤ i ∧ L.get ⟨i, hi⟩ = x := by
  induction L generalizing n with
  | nil => simp at hx
  | cons a t ih =>
    cases n with
    | zero =>
      rw [List.drop_zero] at hx
      rcases List.mem_cons.mp hx with h | h
      · exact ⟨0, by simp, by omega, by simp [h.symm]⟩
      · obtain ⟨i, hi, _, hgi⟩ := ih (show x ∈ t.drop 0 by simpa using h)
        exact ⟨i + 1, by simpa using Nat.succ_lt_succ hi, by omega, by simpa using hgi⟩
    | succ m =>
      have hx' : x ∈ t.drop m := by simpa using hx
      obtain ⟨i, hi, hle, hgi⟩ := ih hx'
      exact ⟨i + 1, by simpa using Nat.succ_lt_succ hi, by omega, by simpa using hgi⟩

/-- C3 (amended): idempotence of the synchronize operation holds for
marker-pair texts that are locatable (last start-marker line strictly
before last end-marker line) or entirely marker-free, with a rendered
body that mentions neither marker and contains no blank line (or is
empty): running synchronize twice with the same rendered body yields the
same bytes as running it once.  (Unrestricted idempotence as the spec
states it fails — see the counterexample with an end-marker line
preceding the start-marker line.) -/
theorem updateStylesCore_idem
    (id : List Char) (hid : '\n' ∉ id)
    (body : List Char) (ins : Nat) (content : List Char)
    (hBnoS : ∀ l ∈ splitLinesL body, lineContains l (markerStartL id) = false)
    (hBnoE : ∀ l ∈ splitLinesL body, lineContains l (markerEndL id) = false)
    (hBody : body = [] ∨ ∀ l ∈ splitLinesL body, l ≠ [])
    (hloc :
      (∃ s e, findLastIdx (fun l => lineContains l (markerStartL id))
          (splitLinesL content) = some s ∧
        findLastIdx (fun l => lineContains l (markerEndL id))
          (splitLinesL content) = some e ∧ s < e) ∨
      (∀ l ∈ splitLinesL content, lineContains l (markerStartL id) = false ∧
        lineContains l (markerEndL id) = false)) :
    updateStylesCore (markerStartL id) (markerEndL id) ins body
        (updateStylesCore (markerStartL id) (markerEndL id) ins body content) =
      updateStylesCore (markerStartL id) (markerEndL id) ins body content := by
  have hmS : markerStartL id ≠ [] := markerStartL_ne_nil id
  have hmE : markerEndL id ≠ [] := markerEndL_ne_nil id
  have hLnl : ∀ l ∈ splitLinesL content, '\n' ∉ l := fun l hl =>
    no_nl_of_mem_splitLinesL l hl
  rcases hloc with ⟨s, e, hs, he, hlt⟩ | hfree
  · -- the marker pair is located: the first run replaces the region body
    obtain ⟨hsl, hps, hafterS⟩ := findLastIdx_some_spec hs
    obtain ⟨hel, hpe, hafterE⟩ := findLastIdx_some_spec he
    have h1 : updateStylesCore (markerStartL id) (markerEndL id) ins body content =
        collapseChars (joinLinesL ((splitLinesL content).take (s + 1) ++
          (splitLinesL body ++ (splitLinesL content).drop e))) := by
      rw [updateStylesCore_eq_of_located hs he hlt, joinLinesL_splice, List.append_assoc]
    have hP : (splitLinesL content).take (s + 1) ≠ [] := by
      have hlen : ((splitLinesL content).take (s + 1)).length = s + 1 := by
        rw [List.length_take]
        omega
      intro h0
      rw [h0] at hlen
      simp at hlen
    have hS : (splitLinesL content).drop e ≠ [] := by
      have hlen : ((splitLinesL content).drop e).length = (splitLinesL content).length - e := by
        rw [List.length_drop]
      intro h0
      rw [h0] at hlen
      simp at hlen
      omega
    have htake_s : (splitLinesL content).take (s + 1) =
        (splitLinesL content).take s ++ [(splitLinesL content).get ⟨s, hsl⟩] := by
      rw [List.take_succ, List.getElem?_eq_getElem hsl]
      simp [List.get_eq_getElem]
    have hdrop_e : (splitLinesL content).drop e =
        (splitLinesL content).get ⟨e, hel⟩ :: (splitLinesL content).drop (e + 1) := by
      rw [List.drop_eq_getElem_cons hel]
      simp [List.get_eq_getElem]
    have hPlastval : ((splitLinesL content).take (s + 1)).getLast hP =
        (splitLinesL content).get ⟨s, hsl⟩ := by
      have h2 : ((splitLinesL content).take (s + 1)).getLast? =
          some (((splitLinesL content).take (s + 1)).getLast hP) :=
        List.getLast?_eq_getLast _ hP
      have h3 : ((splitLinesL content).take (s + 1)).getLast? =
          some ((splitLinesL content).get ⟨s, hsl⟩) := by
        rw [htake_s, List.getLast?_concat]
      rw [h3] at h2
      exact (Option.some.inj h2).symm
    have hSheadval : ((splitLinesL content).drop e).head hS =
        (splitLinesL content).get ⟨e, hel⟩ := by
      have h2 : ((splitLinesL content).drop e).head? =
          some (((splitLinesL content).drop e).head hS) := List.head?_eq_head hS
      have h3 : ((splitLinesL content).drop e).head? =
          some ((splitLinesL content).get ⟨e, hel⟩) := by
        rw [hdrop_e]
        rfl
      rw [h3] at h2
      exact (Option.some.inj h2).symm
    have hStail : ((splitLinesL content).drop e).tail = (splitLinesL content).drop (e + 1) := by
      rw [hdrop_e]
      rfl
    rw [h1]
    refine updateStylesCore_fixpoint (markerStartL id) (markerEndL id) body ins
      ((splitLinesL content).take (s + 1)) ((splitLinesL content).drop e) hP hS
      (fun l hl => hLnl l (List.take_subset _ _ hl))
      (fun l hl => hLnl l (List.drop_subset _ _ hl))
      hmS hmE ?_ ?_ ?_ ?_ hBnoS hBnoE hBody
    · rw [hPlastval]
      exact hps
    · rw [hSheadval]
      exact hpe
    · intro l hl
      obtain ⟨i, hi, hle, hgi⟩ := mem_drop_spec hl
      rw [← hgi]
      exact hafterS i hi (by omega)
    · intro l hl
      rw [hStail] at hl
      obtain ⟨i, hi, hle, hgi⟩ := mem_drop_spec hl
      rw [← hgi]
      exact hafterE i hi (by omega)
  · -- no marker line at all: the first run inserts a fresh block
    have h1 : updateStylesCore (markerStartL id) (markerEndL id) ins body content =
        collapseChars (joinLinesL (insertBlock (markerStartL id) (markerEndL id) ins body
          (splitLinesL content))) := updateStylesCore_eq_insert hfree
    have hlist : insertBlock (markerStartL id) (markerEndL id) ins body (splitLinesL content) =
        (((splitLinesL content).take (min ins (splitLinesL content).length) ++
            [markerStartL id]) ++ [body]) ++
          (markerEndL id :: (splitLinesL content).drop (min ins (splitLinesL content).length)) := by
      simp [insertBlock]
    have h2 : updateStylesCore (markerStartL id) (markerEndL id) ins body content =
        collapseChars (joinLinesL
          (((splitLinesL content).take (min ins (splitLinesL content).length) ++
              [markerStartL id]) ++
            (splitLinesL body ++
              (markerEndL id ::
                (splitLinesL content).drop (min ins (splitLinesL content).length))))) := by
      rw [h1, hlist]
      congr 1
      rw [joinLinesL_splice, List.append_assoc]
    have hP : (splitLinesL content).take (min ins (splitLinesL content).length) ++
        [markerStartL id] ≠ [] := by simp
    have hS : (markerEndL id ::
        (splitLinesL content).drop (min ins (splitLinesL content).length)) ≠ [] := by simp
    have hPlastval : ((splitLinesL content).take (min ins (splitLinesL content).length) ++
        [markerStartL id]).getLast hP = markerStartL id := by
      have h3 := List.getLast?_eq_getLast _ hP
      rw [List.getLast?_concat] at h3
      exact (Option.some.inj h3).symm
    rw [h2]
    refine updateStylesCore_fixpoint (markerStartL id) (markerEndL id) body ins
      _ _ hP hS ?_ ?_ hmS hmE ?_ ?_ ?_ ?_ hBnoS hBnoE hBody
    · intro l hl
      rcases List.mem_append.mp hl with h3 | h3
      · exact hLnl l (List.take_subset _ _ h3)
      · rw [List.mem_singleton.mp h3]
        exact nl_not_mem_markerStartL hid
    · intro l hl
      rcases List.mem_cons.mp hl with h3 | h3
      · rw [h3]
        exact nl_not_mem_markerEndL hid
      · exact hLnl l (List.drop_subset _ _ h3)
    · rw [hPlastval]
      exact lineContains_refl _
    · exact lineContains_refl _
    · intro l hl
      rcases List.mem_cons.mp hl with h3 | h3
      · rw [h3]
        exact markerEnd_no_markerStart id
      · exact (hfree l (List.drop_subset _ _ h3)).1
    · intro l hl
      exact (hfree l (List.drop_subset _ _ hl)).2

theorem findLastIdx_eq_some_of_spec (p : List Char → Bool) {L : List (List Char)} {s : Nat}
    (hsl : s < L.length) (hps : p (L.get ⟨s, hsl⟩) = true)
    (hafter : ∀ j (hj : j < L.length), s < j → p (L.get ⟨j, hj⟩) = false) :
    findLastIdx p L = some s := by
  have hdec : L.take (s + 1) ++ L.drop (s + 1) = L := List.take_append_drop _ _
  have hP : L.take (s + 1) ≠ [] := by
    have hlen : (L.take (s + 1)).length = s + 1 := by
      rw [List.length_take]
      omega
    intro h0
    rw [h0] at hlen
    simp at hlen
  have htake_s : L.take (s + 1) = L.take s ++ [L.get ⟨s, hsl⟩] := by
    rw [List.take_succ, List.getElem?_eq_getElem hsl]
    simp [List.get_eq_getElem]
  have hlast : (L.take (s + 1)).getLast hP = L.get ⟨s, hsl⟩ := by
    have h2 := List.getLast?_eq_getLast _ hP
    have h3 : (L.take (s + 1)).getLast? = some (L.get ⟨s, hsl⟩) := by
      rw [htake_s, List.getLast?_concat]
    rw [h3] at h2
    exact (Option.some.inj h2).symm
  have hnone : findLastIdx p (L.drop (s + 1)) = none := by
    apply findLastIdx_eq_none
    intro l hl
    obtain ⟨i, hi, hle, hgi⟩ := mem_drop_spec hl
    rw [← hgi]
    exact hafter i hi (by omega)
  conv_lhs => rw [← hdec]
  rw [findLastIdx_append_none hnone, findLastIdx_getLast hP (by rw [hlast]; exact hps)]
  congr 1
  rw [List.length_take]
  omega

/-! ## Claim C1 -/

/-- C1 (amended): when the marker pair of owner X is located
(`startIndex < endIndex`), `updateStylesFile` replaces only the lines
strictly between X's marker lines, and `removeMarkers` deletes only its
marker lines (plus, for `deleteBody = false`, the group-comment interior
lines) — every line outside X's own marker pair is byte-for-byte
unchanged *provided* the text resulting from the region edit contains no
run of three or more newlines.  (Without that proviso the whole-file
normalization `\n{3,} → \n\n` may rewrite blank runs outside X's region;
see the counterexample.) -/
theorem c1_amended :
    ∀ (mS mE : List Char) (ins : Nat) (body content : List Char) (s e : Nat),
      findLastIdx (fun l => lineContains l mS) (splitLinesL content) = some s →
      findLastIdx (fun l => lineContains l mE) (splitLinesL content) = some e →
      s < e →
      (hasNNN (joinLinesL ((splitLinesL content).take (s + 1) ++ [body] ++
          (splitLinesL content).drop e)) = false →
        splitLinesL (updateStylesCore mS mE ins body content) =
          (splitLinesL content).take (s + 1) ++ splitLinesL body ++
            (splitLinesL content).drop e) ∧
      (∀ deleteImports : Bool,
        hasNNN (joinLinesL ((splitLinesL content).take s ++
            (if deleteImports then [] else
              (((splitLinesL content).drop (s + 1)).take (e - (s + 1))).filter
                (fun l => !(lineContains l "/*".data) || !(lineContains l "*/".data))) ++
            (splitLinesL content).drop (e + 1))) = false →
        removeMarkersCore mS mE deleteImports content =
          some (joinLinesL ((splitLinesL content).take s ++
            (if deleteImports then [] else
              (((splitLinesL content).drop (s + 1)).take (e - (s + 1))).filter
                (fun l => !(lineContains l "/*".data) || !(lineContains l "*/".data))) ++
            (splitLinesL content).drop (e + 1)))) := by
  intro mS mE ins body content s e hs he hlt
  constructor
  · intro hNT
    rw [updateStylesCore_eq_of_located hs he hlt, collapseChars_eq_of_no_triple hNT,
      joinLinesL_splice]
    apply splitLinesL_joinLinesL
    · intro hh
      obtain ⟨h1, _⟩ := List.append_eq_nil.mp hh
      obtain ⟨_, h2⟩ := List.append_eq_nil.mp h1
      exact splitLinesL_ne_nil body h2
    · intro l hl
      rcases List.mem_append.mp hl with h1 | h1
      · rcases List.mem_append.mp h1 with h2 | h2
        · exact no_nl_of_mem_splitLinesL l (List.take_subset _ _ h2)
        · exact no_nl_of_mem_splitLinesL l h2
      · exact no_nl_of_mem_splitLinesL l (List.drop_subset _ _ h1)
  · intro deleteImports hNT
    rw [removeMarkersCore_eq_of_located deleteImports hs he hlt,
      collapseChars_eq_of_no_triple hNT]

/-- C1, counterexample to the claim as stated: a target file containing
the regions of the two owners `x` and `y` plus unrelated lines among
which stand two consecutive blank lines.  Synchronizing owner `x` does
not leave the lines outside x's marker pair byte-for-byte unchanged: the
whole-file normalization collapses the blank run, so the output lines
differ from `prefix ++ body ++ suffix`. -/
theorem c1_counterexample :
    splitLinesL (updateStylesCore (markerStartL "x".data) (markerEndL "x".data) 0
        "/* base */\n@import \"n\";".data
        "/* y import start */\n@import \"q\";\n/* y import end */\nu\n\n\nv\n/* x import start */\nold\n/* x import end */\ntail".data) ≠
      (splitLinesL "/* y import start */\n@import \"q\";\n/* y import end */\nu\n\n\nv\n/* x import start */\nold\n/* x import end */\ntail".data).take 8 ++
        splitLinesL "/* base */\n@import \"n\";".data ++
        (splitLinesL "/* y import start */\n@import \"q\";\n/* y import end */\nu\n\n\nv\n/* x import start */\nold\n/* x import end */\ntail".data).drop 9 := by
  decide

/-- C1, witness: a two-owner file without long blank runs, synchronized
and stripped for owner `x`. -/
theorem c1_witness :
    splitLinesL (updateStylesCore (markerStartL "x".data) (markerEndL "x".data) 0
        "/* base */\n@import \"n\";".data
        "/* y import start */\n@import \"q\";\n/* y import end */\nmid\n/* x import start */\nold\n/* x import end */\ntail".data) =
      (splitLinesL "/* y import start */\n@import \"q\";\n/* y import end */\nmid\n/* x import start */\nold\n/* x import end */\ntail".data).take 5 ++
        splitLinesL "/* base */\n@import \"n\";".data ++
        (splitLinesL "/* y import start */\n@import \"q\";\n/* y import end */\nmid\n/* x import start */\nold\n/* x import end */\ntail".data).drop 6 ∧
    removeMarkersCore (markerStartL "x".data) (markerEndL "x".data) true
        "/* y import start */\n@import \"q\";\n/* y import end */\nmid\n/* x import start */\nold\n/* x import end */\ntail".data =
      some (joinLinesL
        ((splitLinesL "/* y import start */\n@import \"q\";\n/* y import end */\nmid\n/* x import start */\nold\n/* x import end */\ntail".data).take 4 ++
          ([] ++
          (splitLinesL "/* y import start */\n@import \"q\";\n/* y import end */\nmid\n/* x import start */\nold\n/* x import end */\ntail".data).drop (6 + 1)))) := by
  constructor
  · exact (c1_amended (markerStartL "x".data) (markerEndL "x".data) 0
      "/* base */\n@import \"n\";".data
      "/* y import start */\n@import \"q\";\n/* y import end */\nmid\n/* x import start */\nold\n/* x import end */\ntail".data
      4 6 (by decide) (by decide) (by decide)).1 (by decide)
  · have h := (c1_amended (markerStartL "x".data) (markerEndL "x".data) 0
      "/* base */\n@import \"n\";".data
      "/* y import start */\n@import \"q\";\n/* y import end */\nmid\n/* x import start */\nold\n/* x import end */\ntail".data
      4 6 (by decide) (by decide) (by decide)).2 true (by decide)
    simpa using h

/-! ## Claim C3 -/

/-- C3, counterexample to idempotence as stated: an initial text in which
a line containing the end-marker text precedes the only line containing
the start-marker text.  `locate` fails (`startIndex > endIndex`), so each
run takes the insertion path and prepends a fresh block: the second run
does not reproduce the first run's output. -/
theorem c3_counterexample :
    updateStylesText (mkStartS "x") (mkEndS "x") 0 "/* base */\n@import \"a\";"
        (updateStylesText (mkStartS "x") (mkEndS "x") 0 "/* base */\n@import \"a\";"
          "/* x import end */\n/* x import start */") ≠
      updateStylesText (mkStartS "x") (mkEndS "x") 0 "/* base */\n@import \"a\";"
        "/* x import end */\n/* x import start */" := by
  decide

/-- C3, witness: idempotence on a locatable file with a concrete
discovered-import body. -/
theorem c3_witness :
    updateStylesCore (markerStartL "x".data) (markerEndL "x".data) 0
        "/* base */\n@import \"a\";".data
        (updateStylesCore (markerStartL "x".data) (markerEndL "x".data) 0
          "/* base */\n@import \"a\";".data
          "top\n/* x import start */\nold\n/* x import end */\nbottom".data) =
      updateStylesCore (markerStartL "x".data) (markerEndL "x".data) 0
        "/* base */\n@import \"a\";".data
        "top\n/* x import start */\nold\n/* x import end */\nbottom".data :=
  updateStylesCore_idem "x".data (by decide) "/* base */\n@import \"a\";".data 0
    "top\n/* x import start */\nold\n/* x import end */\nbottom".data
    (by decide) (by decide) (Or.inr (by decide))
    (Or.inl ⟨1, 3, by decide, by decide, by decide⟩)

/-! ## Claim C5 -/

/-- C5 (amended): marker location uses *last* occurrences, not first
ones: for indices `s` and `e` characterized as the greatest index of a
line containing the exact start-marker text, respectively end-marker
text, the scan of `updateStylesFile`/`removeMarkers` locates exactly
`(s, e)`, and when `s < e` both operations edit that last-occurrence
region (later duplicate marker lines win over earlier ones). -/
theorem c5_amended :
    ∀ (mS mE : List Char) (ins : Nat) (body content : List Char) (s e : Nat)
      (hsl : s < (splitLinesL content).length) (hel : e < (splitLinesL content).length),
      lineContains ((splitLinesL content).get ⟨s, hsl⟩) mS = true →
      (∀ j (hj : j < (splitLinesL content).length), s < j →
        lineContains ((splitLinesL content).get ⟨j, hj⟩) mS = false) →
      lineContains ((splitLinesL content).get ⟨e, hel⟩) mE = true →
      (∀ j (hj : j < (splitLinesL content).length), e < j →
        lineContains ((splitLinesL content).get ⟨j, hj⟩) mE = false) →
      findLastIdx (fun l => lineContains l mS) (splitLinesL content) = some s ∧
      findLastIdx (fun l => lineContains l mE) (splitLinesL content) = some e ∧
      (s < e →
        updateStylesCore mS mE ins body content =
          collapseChars (joinLinesL ((splitLinesL content).take (s + 1) ++ [body] ++
            (splitLinesL content).drop e)) ∧
        ∀ deleteImports : Bool,
          removeMarkersCore mS mE deleteImports content =
            some (collapseChars (joinLinesL ((splitLinesL content).take s ++
              (if deleteImports then [] else
                (((splitLinesL content).drop (s + 1)).take (e - (s + 1))).filter
                  (fun l => !(lineContains l "/*".data) || !(lineContains l "*/".data))) ++
              (splitLinesL content).drop (e + 1))))) := by
  intro mS mE ins body content s e hsl hel hps hafterS hpe hafterE
  have hs := findLastIdx_eq_some_of_spec (fun l => lineContains l mS) hsl hps hafterS
  have he := findLastIdx_eq_some_of_spec (fun l => lineContains l mE) hel hpe hafterE
  refine ⟨hs, he, fun hlt => ⟨updateStylesCore_eq_of_located hs he hlt, fun flag =>
    removeMarkersCore_eq_of_located flag hs he hlt⟩⟩

/-- C5, counterexample to first-occurrence location: a file holding two
complete `x` regions.  The spec-side first-occurrence synchronize
(`specFirstUpdate`) rewrites the first region (replacing `A`), but
`updateStylesFile` rewrites the second one (replacing `B`), leaving the
first region's body `A` untouched. -/
theorem c5_counterexample :
    updateStylesText (mkStartS "x") (mkEndS "x") 0 "@import \"n\";"
        "/* x import start */\nA\n/* x import end */\n/* x import start */\nB\n/* x import end */" =
      "/* x import start */\nA\n/* x import end */\n/* x import start */\n@import \"n\";\n/* x import end */" ∧
    specFirstUpdate (mkStartS "x").data (mkEndS "x").data 0 "@import \"n\";".data
        "/* x import start */\nA\n/* x import end */\n/* x import start */\nB\n/* x import end */".data =
      "/* x import start */\n@import \"n\";\n/* x import end */\n/* x import start */\nB\n/* x import end */".data ∧
    updateStylesText (mkStartS "x") (mkEndS "x") 0 "@import \"n\";"
        "/* x import start */\nA\n/* x import end */\n/* x import start */\nB\n/* x import end */" ≠
      ⟨specFirstUpdate (mkStartS "x").data (mkEndS "x").data 0 "@import \"n\";".data
        "/* x import start */\nA\n/* x import end */\n/* x import start */\nB\n/* x import end */".data⟩ := by
  refine ⟨by decide, by decide, by decide⟩

/-- C5, witness: the last-occurrence characterization instantiated on the
duplicate-marker file (`s = 3`, `e = 5`). -/
theorem c5_witness :
    findLastIdx (fun l => lineContains l (markerStartL "x".data))
      (splitLinesL "/* x import start */\nA\n/* x import end */\n/* x import start */\nB\n/* x import end */".data) = some 3 ∧
    findLastIdx (fun l => lineContains l (markerEndL "x".data))
      (splitLinesL "/* x import start */\nA\n/* x import end */\n/* x import start */\nB\n/* x import end */".data) = some 5 :=
  ⟨(c5_amended (markerStartL "x".data) (markerEndL "x".data) 0 "@import \"n\";".data
      "/* x import start */\nA\n/* x import end */\n/* x import start */\nB\n/* x import end */".data
      3 5 (by decide) (by decide) (by decide) (by decide) (by decide) (by decide)).1,
   (c5_amended (markerStartL "x".data) (markerEndL "x".data) 0 "@import \"n\";".data
      "/* x import start */\nA\n/* x import end */\n/* x import start */\nB\n/* x import end */".data
      3 5 (by decide) (by decide) (by decide) (by decide) (by decide) (by decide)).2.1⟩

/-! ## Claim C7 -/

/-- C7 (amended): `removeMarkers` with `deleteBody = false` deletes the
two marker lines *and* every interior line containing both `"/*"` and
`"*/"` (the group-marker comment lines); the remaining interior lines
(the `@import` lines) are kept in place, and — provided the resulting
text has no run of three or more newlines — everything is written back
exactly as `prefix ++ kept-interior ++ suffix`. -/
theorem c7_amended :
    ∀ (mS mE : List Char) (content : List Char) (s e : Nat),
      findLastIdx (fun l => lineContains l mS) (splitLinesL content) = some s →
      findLastIdx (fun l => lineContains l mE) (splitLinesL content) = some e →
      s < e →
      hasNNN (joinLinesL ((splitLinesL content).take s ++
        (((splitLinesL content).drop (s + 1)).take (e - (s + 1))).filter
          (fun l => !(lineContains l "/*".data) || !(lineContains l "*/".data)) ++
        (splitLinesL content).drop (e + 1))) = false →
      removeMarkersCore mS mE false content =
        some (joinLinesL ((splitLinesL content).take s ++
          (((splitLinesL content).drop (s + 1)).take (e - (s + 1))).filter
            (fun l => !(lineContains l "/*".data) || !(lineContains l "*/".data)) ++
          (splitLinesL content).drop (e + 1))) := by
  intro mS mE content s e hs he hlt hNT
  have h1 := removeMarkersCore_eq_of_located false hs he hlt
  simp only [Bool.false_eq_true, if_false] at h1
  rw [h1, collapseChars_eq_of_no_triple hNT]

/-- C7, counterexample: the body's `/* base */` comment line does not
remain in the output of `removeMarkers(deleteBody = false)` — every
interior line containing both `"/*"` and `"*/"` is dropped along with
the marker lines. -/
theorem c7_counterexample :
    removeMarkersCore (markerStartL "x".data) (markerEndL "x".data) false
        "top\n/* x import start */\n/* base */\n@import \"a\";\n/* x import end */\nbottom".data =
      some "top\n@import \"a\";\nbottom".data ∧
    "/* base */".data ∈
      splitLinesL "top\n/* x import start */\n/* base */\n@import \"a\";\n/* x import end */\nbottom".data ∧
    "/* base */".data ∉ splitLinesL "top\n@import \"a\";\nbottom".data := by
  refine ⟨by decide, by decide, by decide⟩

/-- C7, witness: the amended removal behavior on a concrete region. -/
theorem c7_witness :
    removeMarkersCore (markerStartL "x".data) (markerEndL "x".data) false
        "top\n/* x import start */\n/* base */\n@import \"a\";\n/* x import end */\nbottom".data =
      some (joinLinesL
        ((splitLinesL "top\n/* x import start */\n/* base */\n@import \"a\";\n/* x import end */\nbottom".data).take 1 ++
          (((splitLinesL "top\n/* x import start */\n/* base */\n@import \"a\";\n/* x import end */\nbottom".data).drop (1 + 1)).take (4 - (1 + 1))).filter
            (fun l => !(lineContains l "/*".data) || !(lineContains l "*/".data)) ++
          (splitLinesL "top\n/* x import start */\n/* base */\n@import \"a\";\n/* x import end */\nbottom".data).drop (4 + 1))) :=
  c7_amended (markerStartL "x".data) (markerEndL "x".data)
    "top\n/* x import start */\n/* base */\n@import \"a\";\n/* x import end */\nbottom".data
    1 4 (by decide) (by decide) (by decide) (by decide)

/-! ## Claim C2 -/

/-- C2 (code bug): the debounced reactive update is *not*
discovery-fresh.  Neither a chokidar event nor the debounce timer firing
refreshes `_currentGroupedImportsCache` (the debounced callback is
`() => updateStylesFile(false)`, with no `generateImports()`), so the
body written between the markers is the rendering of the cache from the
last `_initialUpdate`, not of the directory contents at the time of the
update: after `_b.scss` is added and the debounced update runs, the
on-disk block still lacks `@import "b";` although a fresh discovery pass
would render it. -/
theorem c2_stale_reactive_cache :
    (∀ (cfg : WConfig) (w : WState) (f : FSEntries),
      (wstep cfg w (.fsEvent f)).groupedImportsCache = w.groupedImportsCache ∧
      (wstep cfg w .timerFire).groupedImportsCache = w.groupedImportsCache) ∧
    lineContains ((runEvents ⟨"w", 0, ["r"], []⟩
        ⟨true, [], fsOf [.file "_a.scss"], "", false, 0⟩
        [.initialUpdate, .fsEvent (fsOf [.file "_a.scss", .file "_b.scss"]),
          .timerFire]).disk.data)
      "@import \"b\";".data = false ∧
    lineContains (renderImports (discoverNow ⟨"w", 0, ["r"], []⟩
        (fsOf [.file "_a.scss", .file "_b.scss"]))).data
      "@import \"b\";".data = true ∧
    (runEvents ⟨"w", 0, ["r"], []⟩
        ⟨true, [], fsOf [.file "_a.scss"], "", false, 0⟩
        [.initialUpdate, .fsEvent (fsOf [.file "_a.scss", .file "_b.scss"]),
          .timerFire]).writes = 2 := by
  refine ⟨fun cfg w f => ⟨rfl, ?_⟩, by decide, by decide, by decide⟩
  cases hd : w.debPending <;> simp [wstep, hd]

/-! ## Claim C4 -/

/-- C4, counterexample: the fresh-insertion scenario (empty target file,
insertion line 1 i.e. 0-indexed 0, watch dir `{_a.scss, _b.scss}`) does
*not* produce the four-line block without a group heading: the rendered
block contains a `/* base */` heading line for the ungrouped sentinel
group. -/
theorem c4_counterexample :
    "/* base */".data ∈ splitLinesL (updateStylesText (mkStartS "w") (mkEndS "w") 0
        (renderImports (discoverNow ⟨"w", 0, ["r"], []⟩
          (fsOf [.file "_a.scss", .file "_b.scss"]))) "").data ∧
    splitLinesL (updateStylesText (mkStartS "w") (mkEndS "w") 0
        (renderImports (discoverNow ⟨"w", 0, ["r"], []⟩
          (fsOf [.file "_a.scss", .file "_b.scss"]))) "").data ≠
      ["/* w import start */".data, "@import \"a\";".data, "@import \"b\";".data,
        "/* w import end */".data] := by
  refine ⟨by decide, by decide⟩

/-- C4 (amended): the group heading is emitted for the `base` sentinel
group as well: the fresh-insertion scenario yields exactly the start
marker, a `/* base */` heading, the two imports sorted `a` before `b`,
the end marker, and the trailing newline of the originally empty file. -/
theorem c4_amended :
    updateStylesText (mkStartS "w") (mkEndS "w") 0
        (renderImports (discoverNow ⟨"w", 0, ["r"], []⟩
          (fsOf [.file "_a.scss", .file "_b.scss"]))) "" =
      "/* w import start */\n/* base */\n@import \"a\";\n@import \"b\";\n/* w import end */\n" := by
  decide

/-! ## Claim C6 -/

/-- C6, counterexample: a watcher whose target styles file
`["r", "_main.scss"]` lies directly inside its own watch directory
`["r"]` and matches the eligible-file pattern.  Discovery includes it:
some `DiscoveredImport.src` equals the resolved target file, violating
the claimed invariant. -/
theorem c6_counterexample :
    (readDirRec [] (fsOf [.file "_main.scss", .file "_a.scss"]) ["r"] []).map
        (fun d => d.src) = [["r", "_main.scss"], ["r", "_a.scss"]] ∧
    ["r", "_main.scss"] ∈
      (readDirRec [] (fsOf [.file "_main.scss", .file "_a.scss"]) ["r"] []).map
        (fun d => d.src) := by
  refine ⟨by decide, by decide⟩

/-- C6 (amended): `readDirRecursive` never excludes the target styles
file: *every* file entry whose basename starts with `_` and ends with
`.scss` contributes a DiscoveredImport, with no comparison against the
target file — in particular the target itself is discovered whenever it
lies in the scanned directory under such a name. -/
theorem c6_amended :
    ∀ (excludeAbs : List (List String)) (entries : List FSEntry)
      (curAbs rel : List String) (name : String),
      FSEntry.file name ∈ entries → isUnderscoreScss name = true →
      (⟨curAbs ++ [name], groupKeyOf rel, importLineOf rel name⟩ : DiscoveredImport) ∈
        readDirRec excludeAbs (fsOf entries) curAbs rel := by
  intro ex entries cur rel name hmem hpat
  induction entries with
  | nil => simp at hmem
  | cons ent rest ih =>
    rcases List.mem_cons.mp hmem with h | h
    · rw [← h]
      rw [show fsOf (FSEntry.file name :: rest) =
        FSEntries.cons (FSEntry.file name) (fsOf rest) from rfl]
      rw [show readDirRec ex (FSEntries.cons (FSEntry.file name) (fsOf rest)) cur rel =
        readDirEntry ex (FSEntry.file name) cur rel ++
          readDirRec ex (fsOf rest) cur rel from rfl]
      rw [show readDirEntry ex (FSEntry.file name) cur rel =
        (if isUnderscoreScss name
         then [⟨cur ++ [name], groupKeyOf rel, importLineOf rel name⟩]
         else []) from rfl]
      rw [if_pos hpat]
      exact List.mem_append.mpr (Or.inl (by simp))
    · rw [show fsOf (ent :: rest) = FSEntries.cons ent (fsOf rest) from rfl]
      rw [show readDirRec ex (FSEntries.cons ent (fsOf rest)) cur rel =
        readDirEntry ex ent cur rel ++ readDirRec ex (fsOf rest) cur rel from rfl]
      exact List.mem_append.mpr (Or.inr (ih h))

/-- C6, witness: the self-discovery of a matching target file inside its
own watch directory. -/
theorem c6_witness :
    (⟨["r"] ++ ["_main.scss"], groupKeyOf [], importLineOf [] "_main.scss"⟩ :
        DiscoveredImport) ∈
      readDirRec [] (fsOf [.file "_main.scss"]) ["r"] [] :=
  c6_amended [] [.file "_main.scss"] ["r"] [] "_main.scss" (by simp) (by decide)

/-! ## Claim C8 -/

/-- C8, counterexample: the degenerate partial `_.scss` is *not* skipped
and no diagnostic path exists for it: it qualifies (`startsWith "_"`,
`endsWith ".scss"`), its name normalizes to an empty stem, and
`path.posix.join` turns that into the degenerate import `@import ".";`,
which is emitted into the rendered block. -/
theorem c8_counterexample :
    readDirRec [] (fsOf [.file "_.scss"]) ["r"] [] =
      [⟨["r", "_.scss"], "base", "@import \".\";"⟩] ∧
    renderImports (generateCache (readDirRec [] (fsOf [.file "_.scss"]) ["r"] [])) =
      "/* base */\n@import \".\";" := by
  refine ⟨by decide, by decide⟩

/-- C8 (amended): `_button.scss` derives to `button` and
`nested/_card.scss` to `nested/card`, but the degenerate `_.scss` is not
skipped: directly inside the watch dir it derives to `.` and emits
`@import ".";` (and in a subdirectory `sub` it emits `@import "sub";`). -/
theorem c8_amended :
    deriveImportPath [] "_button.scss" = "button" ∧
    deriveImportPath ["nested"] "_card.scss" = "nested/card" ∧
    deriveImportPath [] "_.scss" = "." ∧
    deriveImportPath ["sub"] "_.scss" = "sub" ∧
    importLineOf [] "_.scss" = "@import \".\";" ∧
    readDirRec [] (fsOf [.file "_.scss"]) ["watch"] [] =
      [⟨["watch", "_.scss"], "base", "@import \".\";"⟩] := by
  refine ⟨by decide, by decide, by decide, by decide, by decide, by decide⟩

/-! ## Claim C9 -/

/-- C9, counterexample: after `pause()` the watcher is inactive, yet an
incoming change event followed by the debounce window elapsing performs
a write to the styles file (`writes` goes from 1 to 2 while
`isActive = false`) — `updateStylesFile` has no `_isActive` guard. -/
theorem c9_counterexample :
    (runEvents ⟨"w", 0, ["r"], []⟩ ⟨true, [], fsOf [.file "_a.scss"], "", false, 0⟩
        [.initialUpdate, .pauseCmd]).isActive = false ∧
    (runEvents ⟨"w", 0, ["r"], []⟩ ⟨true, [], fsOf [.file "_a.scss"], "", false, 0⟩
        [.initialUpdate, .pauseCmd]).writes = 1 ∧
    (runEvents ⟨"w", 0, ["r"], []⟩ ⟨true, [], fsOf [.file "_a.scss"], "", false, 0⟩
        [.initialUpdate, .pauseCmd,
          .fsEvent (fsOf [.file "_a.scss", .file "_b.scss"]), .timerFire]).isActive = false ∧
    (runEvents ⟨"w", 0, ["r"], []⟩ ⟨true, [], fsOf [.file "_a.scss"], "", false, 0⟩
        [.initialUpdate, .pauseCmd,
          .fsEvent (fsOf [.file "_a.scss", .file "_b.scss"]), .timerFire]).writes = 2 := by
  refine ⟨by decide, by decide, by decide, by decide⟩

/-- C9 (amended): while `Paused`, incoming change events are not merely
recorded — they still arm the debounce timer, and when it fires the
target file is written (with the previously cached imports, since
`generateImports` skips while paused); and `resume()` does not force an
immediate synchronize: it only arms the debounce timer, leaving the disk
and the write count unchanged at the moment of the call. -/
theorem c9_amended :
    ∀ (cfg : WConfig) (w : WState) (f : FSEntries),
      w.isActive = false →
      ((wstep cfg (wstep cfg w (.fsEvent f)) .timerFire).writes = w.writes + 1 ∧
       (wstep cfg (wstep cfg w (.fsEvent f)) .timerFire).disk =
         updateStylesText (mkStartS cfg.markerId) (mkEndS cfg.markerId) cfg.insertLine
           (renderImports w.groupedImportsCache) w.disk ∧
       (wstep cfg (wstep cfg w (.fsEvent f)) .timerFire).isActive = false) ∧
      ((wstep cfg w .resumeCmd).disk = w.disk ∧
       (wstep cfg w .resumeCmd).writes = w.writes ∧
       (wstep cfg w .resumeCmd).debPending = true) := by
  intro cfg w f hpause
  refine ⟨⟨?_, ?_, ?_⟩, ?_, ?_, ?_⟩ <;> simp [wstep, hpause]

/-- C9, witness: the amended pause/resume behavior on a concrete paused
state. -/
theorem c9_witness :
    (wstep ⟨"w", 0, ["r"], []⟩ (wstep ⟨"w", 0, ["r"], []⟩
        ⟨false, [("base", ["@import \"a\";"])], fsOf [.file "_a.scss"], "x", false, 3⟩
        (.fsEvent (fsOf []))) .timerFire).writes = 3 + 1 ∧
    (wstep ⟨"w", 0, ["r"], []⟩
        ⟨false, [("base", ["@import \"a\";"])], fsOf [.file "_a.scss"], "x", false, 3⟩
        .resumeCmd).disk = "x" ∧
    (wstep ⟨"w", 0, ["r"], []⟩
        ⟨false, [("base", ["@import \"a\";"])], fsOf [.file "_a.scss"], "x", false, 3⟩
        .resumeCmd).debPending = true := by
  have h := c9_amended ⟨"w", 0, ["r"], []⟩
    ⟨false, [("base", ["@import \"a\";"])], fsOf [.file "_a.scss"], "x", false, 3⟩
    (fsOf []) rfl
  exact ⟨h.1.1, h.2.1, h.2.2.2⟩

/-! ## Claim C10 -/

set_option maxRecDepth 4000

/-- C10: whenever the target styles file exists (and reading succeeds),
`updateStylesFile` writes the recomputed content back unconditionally —
there is no change-detection before `fs.writeFileSync` — including, as
the last conjunct shows on a concrete file, when the recomputed content
is byte-identical to the current content. -/
theorem c10_unconditional_write :
    (∀ (mS mE : List Char) (ins : Nat) (body content : List Char),
      updateStylesFileRun (some content) mS mE ins body =
        some (updateStylesCore mS mE ins body content)) ∧
    (∀ (mS mE : List Char) (ins : Nat) (body : List Char),
      updateStylesFileRun none mS mE ins body = none) ∧
    updateStylesFileRun
        (some "top\n/* x import start */\n/* base */\n@import \"a\";\n/* x import end */\nbottom".data)
        (markerStartL "x".data) (markerEndL "x".data) 0 "/* base */\n@import \"a\";".data =
      some "top\n/* x import start */\n/* base */\n@import \"a\";\n/* x import end */\nbottom".data := by
  refine ⟨fun _ _ _ _ _ => rfl, fun _ _ _ _ => rfl, by decide⟩

end ScssWatcher
